import Mathlib

/-!
# change-chainid: a verification development

A shallow embedding of `main.go` (the chain-id migration tool) and proofs of
its contract.

* Go strings are modelled by `String` (`len` is the UTF-8 byte size) and, where
  the code walks over runes, by `List Char`.
* Byte slices are `List Nat`.
* Calls into third-party libraries (tendermint, cosmos-sdk, the operating
  system) are results supplied by a `World`, or functions held in `Crypto`.
  The checks the ed25519 key type makes before it computes, and the `panic`
  of each, are modelled; the hash and the signature themselves are taken as
  given.
* A Go `panic` is an outcome of its own, apart from a returned `error`.
* Slot indices are natural numbers: the conversion `int32(idx)` of the loop is
  exact, a commit being one protobuf message with far fewer than `2^31` slots.
-/

namespace ChangeChainId

/-! ## Regular expressions (the fragment of Go `regexp` used by the source) -/

/-- Syntax of the regular expressions that occur in `main.go`. -/
inductive Regex where
  /-- Pattern `^` : beginning of text (no multi-line flag) -/
  | beginText : Regex
  /-- Pattern `$` : end of text (no multi-line flag) -/
  | endText : Regex
  /-- a literal rune -/
  | lit (c : Char) : Regex
  /-- a character class `[lo-hi]` -/
  | range (lo hi : Char) : Regex
  /-- concatenation -/
  | cat (r s : Regex) : Regex
  /-- Pattern `r*` -/
  | star (r : Regex) : Regex
  /-- Pattern `r{n}` -/
  | exactly (r : Regex) (n : Nat) : Regex
  /-- Pattern `r{n,}` -/
  | atLeast (r : Regex) (n : Nat) : Regex
  /-- Pattern `(r)` : a capturing group -/
  | group (r : Regex) : Regex
  deriving Repr

/-- A matching position: the number of runes already consumed and the runes
still ahead. -/
abbrev Pos := Nat × List Char

/-- The class `[lo-hi]` as a test on runes. -/
def inRange (lo hi : Char) : Char → Bool := fun x => decide (lo ≤ x) && decide (x ≤ hi)

/-- One rune satisfying `P` is consumed. -/
def classStep (P : Char → Bool) : Pos → List Pos
  | (_, []) => []
  | (n, c :: cs) => if P c then [(n + 1, cs)] else []

/-- All positions reachable by `n` successive applications of `f`. -/
def times (f : Pos → List Pos) : Nat → Pos → List Pos
  | 0, p => [p]
  | n + 1, p => (f p).flatMap (times f n)

/-- All positions reachable by at most `fuel` successive applications of `f`. -/
def closure (f : Pos → List Pos) : Nat → Pos → List Pos
  | 0, p => [p]
  | fuel + 1, p => p :: (f p).flatMap (closure f fuel)

/-- All positions where a match of the expression starting at `p` can stop. -/
def Regex.step : Regex → Pos → List Pos
  | .beginText, p => if p.1 = 0 then [p] else []
  | .endText, p => if p.2 = [] then [p] else []
  | .lit c, p => classStep (fun x => x == c) p
  | .range lo hi, p => classStep (inRange lo hi) p
  | .cat r s, p => (r.step p).flatMap (fun q => s.step q)
  | .star r, p => closure (fun q => r.step q) p.2.length p
  | .exactly r n, p => times (fun q => r.step q) n p
  | .atLeast r n, p =>
      (times (fun q => r.step q) n p).flatMap
        (fun q => closure (fun q1 => r.step q1) q.2.length q)
  | .group r, p => r.step p

/-- Go `(*Regexp).MatchString`: the text contains a match of the expression,
starting at some offset. -/
def Regex.MatchString (re : Regex) (s : String) : Bool :=
  (List.range (s.data.length + 1)).any
    (fun i => !(re.step (i, s.data.drop i)).isEmpty)

/-! ## `IsValidChainID` (main.go, lines 35-56) -/

/-- The pattern `[a-z]{1,}`. -/
def regexChainID : Regex := .atLeast (.range 'a' 'z') 1

/-- The pattern `_{1}`. -/
def regexEIP155Separator : Regex := .exactly (.lit '_') 1

/-- The pattern `[1-9][0-9]*`. -/
def regexEIP155 : Regex := .cat (.range '1' '9') (.star (.range '0' '9'))

/-- The pattern `-{1}`. -/
def regexEpochSeparator : Regex := .exactly (.lit '-') 1

/-- The pattern `[1-9][0-9]*`. -/
def regexEpoch : Regex := .cat (.range '1' '9') (.star (.range '0' '9'))

/-- The compiled pattern `^(%s)%s(%s)%s(%s)$` with the five pieces filled in. -/
def ethermintChainID : Regex :=
  .cat .beginText
    (.cat (.group regexChainID)
      (.cat regexEIP155Separator
        (.cat (.group regexEIP155)
          (.cat regexEpochSeparator
            (.cat (.group regexEpoch) .endText)))))

/-- Go `len(s)` of a string: its number of bytes. -/
def len (s : String) : Nat := s.utf8ByteSize

/-- Go `IsValidChainID`: it returns false if the given chain identifier is
incorrectly formatted. -/
def IsValidChainID (chainID : String) : Bool :=
  if len chainID > 48 then false
  else ethermintChainID.MatchString chainID

/-! ## The grammar of chain identifiers, as the specification words it -/

/-- A lowercase letter `a`-`z`. -/
def isLowercaseLetter (c : Char) : Prop := 'a' ≤ c ∧ c ≤ 'z'

/-- A decimal digit `0`-`9`. -/
def isDecimalDigit (c : Char) : Prop := '0' ≤ c ∧ c ≤ '9'

/-- The number a string of decimal digits denotes. -/
def decimalValue (ds : List Char) : Nat :=
  ds.foldl (fun acc c => acc * 10 + (c.toNat - '0'.toNat)) 0

/-- A positive decimal integer written without a leading zero. -/
def PositiveIntegerNoLeadingZero (ds : List Char) : Prop :=
  ds ≠ [] ∧ (∀ c ∈ ds, isDecimalDigit c) ∧ ds.head? ≠ some '0' ∧ 0 < decimalValue ds

/-- The grammar
`<lowercase-letters>+ "_" <positive-integer-no-leading-zero> "-" <positive-integer-no-leading-zero>`
for the whole of the text. -/
def ChainIDGrammar (s : String) : Prop :=
  ∃ name eip155 epoch : List Char,
    s.data = name ++ '_' :: eip155 ++ '-' :: epoch ∧
    name ≠ [] ∧ (∀ c ∈ name, isLowercaseLetter c) ∧
    PositiveIntegerNoLeadingZero eip155 ∧ PositiveIntegerNoLeadingZero epoch

/-! ## Data model (tendermint types, reduced to the fields the tool touches) -/

/-- A byte slice. -/
abbrev Bytes := List Nat

/-- A Go `error`, by its message. -/
abbrev Error := String

/-- Tendermint `BlockIDFlag`. -/
inductive BlockIDFlag where
  | Absent
  | Commit
  | Nil
  deriving DecidableEq, Repr

/-- Tendermint `PartSetHeader`. -/
structure PartSetHeader where
  Total : Nat
  Hash : Bytes
  deriving DecidableEq, Repr

/-- Tendermint `BlockID`. -/
structure BlockID where
  Hash : Bytes
  PartSetHeader : PartSetHeader
  deriving DecidableEq, Repr

/-- The zero value `BlockID{}`. -/
def BlockID.zero : BlockID := ⟨[], ⟨0, []⟩⟩

/-- Tendermint `CommitSig`: one signature slot of a commit. -/
structure CommitSig where
  BlockIDFlag : BlockIDFlag
  ValidatorAddress : Bytes
  Timestamp : Int
  Signature : Bytes
  deriving DecidableEq, Repr

/-- Tendermint `Commit`. -/
structure Commit where
  Height : Int
  Round : Int
  BlockID : BlockID
  Signatures : List CommitSig
  deriving DecidableEq, Repr

/-- Tendermint `Vote`. `MsgType` is the field `Type`, the signed-message type (2 is a precommit). -/
structure Vote where
  MsgType : Nat
  Height : Int
  Round : Int
  BlockID : BlockID
  Timestamp : Int
  ValidatorAddress : Bytes
  ValidatorIndex : Nat
  Signature : Bytes
  deriving DecidableEq, Repr

/-- The protobuf form `tmproto.Vote` of a vote. -/
structure ProtoVote where
  MsgType : Nat
  Height : Int
  Round : Int
  BlockID : BlockID
  Timestamp : Int
  ValidatorAddress : Bytes
  ValidatorIndex : Nat
  Signature : Bytes
  deriving DecidableEq, Repr

/-- Tendermint `(*Vote).ToProto`: a field-for-field copy. -/
def Vote.ToProto (vote : Vote) : ProtoVote :=
  { MsgType := vote.MsgType
    Height := vote.Height
    Round := vote.Round
    BlockID := vote.BlockID
    Timestamp := vote.Timestamp
    ValidatorAddress := vote.ValidatorAddress
    ValidatorIndex := vote.ValidatorIndex
    Signature := vote.Signature }

/-- Tendermint `CommitSig.BlockID`: the block id a slot voted for. -/
def CommitSig.BlockID (cs : CommitSig) (commitBlockID : BlockID) : BlockID :=
  match cs.BlockIDFlag with
  | .Absent => BlockID.zero
  | .Commit => commitBlockID
  | .Nil => BlockID.zero

/-- Tendermint `(*Commit).GetVote`: the vote a slot stands for. `none` is the
index-out-of-range failure of `commit.Signatures[valIdx]`. -/
def Commit.GetVote (commit : Commit) (valIdx : Nat) : Option Vote :=
  match commit.Signatures[valIdx]? with
  | none => none
  | some commitSig =>
    some
      { MsgType := 2
        Height := commit.Height
        Round := commit.Round
        BlockID := commitSig.BlockID commit.BlockID
        Timestamp := commitSig.Timestamp
        ValidatorAddress := commitSig.ValidatorAddress
        ValidatorIndex := valIdx
        Signature := commitSig.Signature }

/-- Tendermint `sm.State`; nested records are kept as their encodings. -/
structure State where
  Version : Bytes
  ChainID : String
  InitialHeight : Int
  LastBlockHeight : Int
  LastBlockID : BlockID
  LastBlockTime : Int
  NextValidators : Bytes
  Validators : Bytes
  LastValidators : Bytes
  LastHeightValidatorsChanged : Int
  ConsensusParams : Bytes
  LastHeightConsensusParamsChanged : Int
  LastResultsHash : Bytes
  AppHash : Bytes
  deriving DecidableEq, Repr

/-! ## Signing (main.go, lines 203-225, and the tendermint ed25519 key type) -/

/-- What a fallible step that may also abort the process yields. -/
inductive Outcome (α : Type) where
  /-- a normal result -/
  | ok (a : α)
  /-- a returned Go `error` -/
  | failed (err : Error)
  /-- a Go `panic` -/
  | panicked (msg : String)
  deriving DecidableEq, Repr

/-- What a call that returns no `error` yields: its value, or the message of
the Go `panic` that ended it. -/
inductive Panics (α : Type) where
  /-- the returned value -/
  | ok (a : α)
  /-- a Go `panic` -/
  | panicked (msg : String)
  deriving DecidableEq, Repr

/-- The arithmetic of the libraries, taken as given: the hash behind an
address, the ed25519 signature of a message under a key of 64 bytes, and the
encoding of a vote. The checks that the library makes on a key before it
computes are in `PrivKey.PubKey`, `PubKey.Address` and `PrivKey.Sign`. -/
structure Crypto where
  /-- Go `tmhash.SumTruncated`: the first 20 bytes of the SHA-256 digest -/
  sumTruncated : Bytes → Bytes
  /-- Go `ed25519.Sign` on a private key of 64 bytes -/
  ed25519Sign : Bytes → Bytes → Bytes
  /-- Go `tmtypes.VoteSignBytes(chainID, vote)` -/
  voteSignBytes : String → ProtoVote → Bytes

/-- Go `MockPV`: a signing identity. The key is an `ed25519.PrivKey`, a byte
slice of any length: `NewMockPVFromBase64` checks none. -/
structure MockPV where
  PrivKey : Bytes
  deriving DecidableEq, Repr

/-- The message of Go's slice-bounds failure (the bounds are left out). -/
def sliceBoundsOutOfRange : String := "runtime error: slice bounds out of range"

/-- The message of the `panic` in `PubKey()` on a key without public half. -/
def pubKeyMissing : String :=
  "Expected ed25519 PrivKey to include concatenated pubkey bytes"

/-- The message of the `panic` in `Address()`. -/
def pubKeyWrongSize : String := "pubkey is incorrect size"

/-- The message of the `panic` in `ed25519.Sign` (the length is left out). -/
def badPrivateKeyLength : String := "ed25519: bad private key length"

/-- Tendermint `ed25519.PrivKey.PubKey`: the slice `privKey[32:]` fails on a
key shorter than 32 bytes; a key whose bytes from 32 on are all zero (or
absent) is refused; otherwise the bytes from 32 on are copied into a fresh
slice of 32 bytes. -/
def PrivKey.PubKey (privKey : Bytes) : Panics Bytes :=
  if privKey.length < 32 then .panicked sliceBoundsOutOfRange
  else
    let tail := privKey.drop 32
    if tail.all (fun v => v == 0) then .panicked pubKeyMissing
    else
      let copied := tail.take 32
      .ok (copied ++ List.replicate (32 - copied.length) 0)

/-- Tendermint `ed25519.PubKey.Address`. -/
def PubKey.Address (cr : Crypto) (pubKey : Bytes) : Panics Bytes :=
  if pubKey.length ≠ 32 then .panicked pubKeyWrongSize
  else .ok (cr.sumTruncated pubKey)

/-- The expression `pv.PrivKey.PubKey().Address().Bytes()`. -/
def MockPV.address (cr : Crypto) (pv : MockPV) : Panics Bytes :=
  match PrivKey.PubKey pv.PrivKey with
  | .panicked msg => .panicked msg
  | .ok pubKey => PubKey.Address cr pubKey

/-- Tendermint `ed25519.PrivKey.Sign`: `ed25519.Sign` refuses a key that is
not 64 bytes long; otherwise the signature is returned with a nil error. -/
def PrivKey.Sign (cr : Crypto) (privKey : Bytes) (msg : Bytes) : Outcome Bytes :=
  if privKey.length ≠ 64 then .panicked badPrivateKeyLength
  else .ok (cr.ed25519Sign privKey msg)

/-- Go `MockPV.SignVote`: `ok` is the vote with its new signature and a nil
return, `failed` is the returned error with the vote untouched. -/
def MockPV.SignVote (cr : Crypto) (pv : MockPV) (chainID : String) (vote : ProtoVote) :
    Outcome ProtoVote :=
  let useChainID := chainID
  let signBytes := cr.voteSignBytes useChainID vote
  match PrivKey.Sign cr pv.PrivKey signBytes with
  | .panicked msg => .panicked msg
  | .failed err => .failed err
  | .ok sig => .ok { vote with Signature := sig }

/-! ## The re-signing loop (main.go, lines 121-136) -/

/-- The assignment `Signatures[idx].Signature = sig` on the slot list. -/
def setSlotSignature : List CommitSig → Nat → Bytes → List CommitSig
  | [], _, _ => []
  | s :: ss, 0, sig => { s with Signature := sig } :: ss
  | s :: ss, idx + 1, sig => s :: setSlotSignature ss idx sig

/-- The assignment `lastCommit.Signatures[idx].Signature = sig`. -/
def Commit.setSignature (lastCommit : Commit) (idx : Nat) (sig : Bytes) : Commit :=
  { lastCommit with Signatures := setSlotSignature lastCommit.Signatures idx sig }

/-- An uppercase hexadecimal digit. -/
def hexDigitUpper (n : Nat) : Char :=
  if n < 10 then Char.ofNat (48 + n) else Char.ofNat (55 + n)

/-- Go `strings.ToUpper(hex.EncodeToString(b))`. -/
def upperHex (b : Bytes) : String :=
  String.mk (b.flatMap (fun x => [hexDigitUpper (x / 16 % 16), hexDigitUpper (x % 16)]))

/-- How the inner loop ends. -/
inductive Found where
  /-- an identity matched and signed: `found = true` -/
  | found
  /-- the list ran out: `found = false` -/
  | notFound
  /-- a library call ended the process -/
  | panicked (msg : String)
  deriving DecidableEq, Repr

/-- The inner loop `for _, pv := range pvs`: the commit after it and how it
ended. The error that `SignVote` returns is not looked at, as in the source:
the slot then gets the signature the vote had. -/
def signWithFirstMatch (cr : Crypto) (chainId : String) (idx : Nat) (v : ProtoVote) :
    List MockPV → Commit → Commit × Found
  | [], lastCommit => (lastCommit, .notFound)
  | pv :: pvs, lastCommit =>
    match MockPV.address cr pv with
    | .panicked msg => (lastCommit, .panicked msg)
    | .ok address =>
      if address = v.ValidatorAddress then
        match pv.SignVote cr chainId v with
        | .panicked msg => (lastCommit, .panicked msg)
        | .failed _ => (lastCommit.setSignature idx v.Signature, .found)
        | .ok signed => (lastCommit.setSignature idx signed.Signature, .found)
      else signWithFirstMatch cr chainId idx v pvs lastCommit

/-- The message of the signer-not-found abort. -/
def signerNotFound (addr : String) : String :=
  "Signer Not Found;Signer Address: " ++ addr

/-- The message of Go's index-out-of-range failure. -/
def indexOutOfRange : String := "runtime error: index out of range"

/-- The outer loop over the slot indices `idxs`, in order: the commit in
memory when the loop stops, and the message of the abort if there was one. -/
def resignSlots (cr : Crypto) (chainId : String) (pvs : List MockPV) :
    List Nat → Commit → Commit × Option String
  | [], lastCommit => (lastCommit, none)
  | idx :: rest, lastCommit =>
    match lastCommit.GetVote idx with
    | none => (lastCommit, some indexOutOfRange)
    | some vote =>
      let v := vote.ToProto
      let addr := upperHex v.ValidatorAddress
      let r := signWithFirstMatch cr chainId idx v pvs lastCommit
      match r.2 with
      | .panicked msg => (r.1, some msg)
      | .notFound => (r.1, some (signerNotFound addr))
      | .found => resignSlots cr chainId pvs rest r.1

/-- The loop `for idx, _ := range lastCommit.Signatures`. -/
def resign (cr : Crypto) (chainId : String) (pvs : List MockPV) (lastCommit : Commit) :
    Commit × Option String :=
  resignSlots cr chainId pvs (List.range lastCommit.Signatures.length) lastCommit

/-! ## Reading the key file (main.go, lines 186-213) -/

/-- Go `unicode.IsSpace`: the runes with the Unicode White_Space property. -/
def isSpace (c : Char) : Bool :=
  let n := c.toNat
  (9 ≤ n && n ≤ 13) || n == 32 || n == 0x85 || n == 0xA0 || n == 0x1680 ||
    (0x2000 ≤ n && n ≤ 0x200a) || n == 0x2028 || n == 0x2029 || n == 0x202f ||
    n == 0x205f || n == 0x3000

/-- Go `strings.TrimSpace`: leading and trailing white space removed. -/
def TrimSpace (s : List Char) : List Char :=
  ((s.dropWhile isSpace).reverse.dropWhile isSpace).reverse

/-- Go `strings.Split(s, sep)` for a separator of one rune. -/
def Split (sep : Char) : List Char → List (List Char)
  | [] => [[]]
  | c :: cs =>
    if c = sep then [] :: Split sep cs
    else
      match Split sep cs with
      | [] => [[c]]
      | l :: ls => (c :: l) :: ls

/-- The alphabet `encodeStd` of `base64.StdEncoding`. -/
def encodeStd : List Char :=
  "ABCDEFGHIJKLMNOPQRSTUVWXYZabcdefghijklmnopqrstuvwxyz0123456789+/".data

/-- The padding rune of `base64.StdEncoding`. -/
def padChar : Char := '='

/-- The decode map of `base64.StdEncoding`: the value of a rune of the
alphabet. -/
def decodeMap (c : Char) : Option Nat :=
  let i := encodeStd.indexOf c
  if i < 64 then some i else none

/-- The quanta of `base64.StdEncoding.Decode`, on input without line breaks:
four runes give three bytes, and only the last quantum may be padded. `none`
is a `CorruptInputError`. -/
def decodeQuanta : List Char → Option Bytes
  | [] => some []
  | c0 :: c1 :: c2 :: c3 :: rest =>
    match decodeMap c0, decodeMap c1 with
    | some i0, some i1 =>
      if c2 = padChar then
        if c3 = padChar ∧ rest = [] then some [i0 * 4 + i1 / 16] else none
      else
        match decodeMap c2 with
        | none => none
        | some i2 =>
          if c3 = padChar then
            if rest = [] then some [i0 * 4 + i1 / 16, i1 % 16 * 16 + i2 / 4] else none
          else
            match decodeMap c3 with
            | none => none
            | some i3 =>
              match decodeQuanta rest with
              | none => none
              | some out =>
                some ((i0 * 4 + i1 / 16) :: (i1 % 16 * 16 + i2 / 4) :: (i2 % 4 * 64 + i3) :: out)
    | _, _ => none
  | _ => none

/-- Go `base64.StdEncoding.DecodeString`: carriage returns and line feeds in
the input are ignored. -/
def DecodeString (s : List Char) : Option Bytes :=
  decodeQuanta (s.filter (fun c => !(c == '\r' || c == '\n')))

/-- The message of a base64 `CorruptInputError` (the offset is left out). -/
def corruptInput : String := "illegal base64 data"

/-- Go `NewMockPVFromBase64`: `none` is the `panic(err)` on a decode error. -/
def NewMockPVFromBase64 (b64PrivateKeyStr : List Char) : Option MockPV :=
  match DecodeString b64PrivateKeyStr with
  | none => none
  | some bz => some { PrivKey := bz }

/-- The loop `for _, line := range lines` of `readKeys`, from the identities
`pvs` gathered so far. -/
def readKeysLines : List (List Char) → List MockPV → Outcome (List MockPV)
  | [], pvs => .ok pvs
  | line :: lines, pvs =>
    let line := TrimSpace line
    if line = [] then readKeysLines lines pvs
    else
      match NewMockPVFromBase64 line with
      | none => .panicked corruptInput
      | some pv => readKeysLines lines (pvs ++ [pv])

/-- Go `readKeys`, given what `os.ReadFile(keyFile)` returned. -/
def readKeys (file : Except Error String) : Outcome (List MockPV) :=
  match file with
  | .error err => .failed err
  | .ok bz =>
    let lines := Split '\n' bz.data
    readKeysLines lines []

/-! ## Standard base64 text of a key file, as the specification words it -/

/-- The rune of a 6-bit value in the standard alphabet. -/
def encodeChar (n : Nat) : Char := encodeStd.getD n 'A'

/-- Standard base64 (RFC 4648, with padding) of a byte string. -/
def EncodeToString : Bytes → List Char
  | [] => []
  | [a] => [encodeChar (a / 4), encodeChar (a % 4 * 16), padChar, padChar]
  | [a, b] =>
    [encodeChar (a / 4), encodeChar (a % 4 * 16 + b / 16), encodeChar (b % 16 * 4), padChar]
  | a :: b :: c :: rest =>
    encodeChar (a / 4) :: encodeChar (a % 4 * 16 + b / 16) ::
      encodeChar (b % 16 * 4 + c / 64) :: encodeChar (c % 64) :: EncodeToString rest

/-- A line of a key file: a key, or a line of white space only. -/
inductive FileLine where
  | key (k : Bytes)
  | blank (w : List Char)
  deriving DecidableEq, Repr

/-- The text of a line. -/
def FileLine.text : FileLine → List Char
  | .key k => EncodeToString k
  | .blank w => w

/-- The lines of a file, each but the last followed by a line feed. -/
def joinLines : List (List Char) → List Char
  | [] => []
  | [l] => l
  | l :: ls => l ++ '\n' :: joinLines ls

/-- The text of a key file with the given lines. A file that ends in a line
feed has an empty blank line as its last line. -/
def fileText (ls : List FileLine) : String :=
  String.mk (joinLines (ls.map FileLine.text))

/-- The keys of a key file, in line order. -/
def fileKeys : List FileLine → List Bytes
  | [] => []
  | .key k :: ls => k :: fileKeys ls
  | .blank _ :: ls => fileKeys ls

/-- The lines are well formed: key bytes are bytes, blank lines are white
space. -/
def FileLine.WellFormed : FileLine → Prop
  | .key k => ∀ b ∈ k, b < 256
  | .blank w => ∀ c ∈ w, isSpace c = true

/-! ## The run of `main` (main.go, lines 58-184) -/

/-- What `os.Stat` returned. -/
inductive StatResult where
  /-- an error for which `os.IsNotExist` holds -/
  | notExist
  /-- any other error: the returned `FileInfo` is nil -/
  | failed (err : Error)
  /-- file information, with what `IsDir()` says -/
  | info (isDir : Bool)
  deriving DecidableEq, Repr

/-- Go `Exists`: `none` is the nil dereference of `stat.IsDir()` when `os.Stat`
fails with an error other than not-exist. -/
def Exists (stat : StatResult) : Option Bool :=
  match stat with
  | .notExist => some false
  | .failed _ => none
  | .info isDir => some isDir

/-- What the libraries and the operating system answer in one run. -/
structure World where
  /-- the flag `-home` -/
  home : String
  /-- the flag `-id` -/
  chainId : String
  /-- the flag `-k` -/
  keys : String
  /-- Go `os.ReadFile` -/
  readFile : String → Except Error String
  /-- Go `filepath.Join(conf.DBDir(), "state.db")` for the given home -/
  stateDBPath : String
  /-- Go `os.Stat` -/
  stat : String → StatResult
  /-- the error of `node.DefaultDBProvider` for a database id, if any -/
  dbProvider : String → Option Error
  /-- the error of `cms.LoadLatestVersion()`, if any -/
  loadLatestVersion : Option Error
  /-- Go `cms.LastCommitID().Hash` -/
  lastCommitHash : Bytes
  /-- Go `node.LoadStateFromDBOrGenesisDocProvider` -/
  loadState : Except Error State
  /-- Go `blockStore.LoadSeenCommit`; `none` is a nil commit -/
  loadSeenCommit : Int → Option Commit
  /-- the error of `blockStore.SaveSeenCommit`, if any -/
  saveSeenCommit : Int → Commit → Option Error
  /-- the error of `stateStore.Save`, if any -/
  saveState : State → Option Error
  /-- the signature scheme -/
  crypto : Crypto

/-- Go `initDBs`: the returned error, if any (the handles carry no data here). -/
def initDBs (dbProvider : String → Option Error) : Option Error :=
  match dbProvider "blockstore" with
  | some err => some err
  | none =>
    match dbProvider "state" with
    | some err => some err
    | none => none

/-- Go `initAppDBs`: the returned error, if any. -/
def initAppDBs (dbProvider : String → Option Error) : Option Error :=
  match dbProvider "application" with
  | some err => some err
  | none => none

/-- What the tool prints. -/
inductive Output where
  /-- The text of `usage()` -/
  | usage
  /-- Prints `invalid chainId` -/
  | invalidChainId
  /-- The text of `fmt.Println(err)` -/
  | error (err : Error)
  /-- Prints `path not exits %s` -/
  | pathNotExits (d : String)
  /-- Prints `Failed! %s = %s Nothing to change!` -/
  | nothingToChange (oldChainId chainId : String)
  /-- Prints `Success! Changed chainId from %s to %s` -/
  | success (oldChainId chainId : String)
  deriving DecidableEq, Repr

/-- The printed text. -/
def Output.text : Output → String
  | .usage => "Usage: -home [chain data dir] -id [new chainId] -k [keysfile(keep one key per line)]\n"
  | .invalidChainId => "invalid chainId\n"
  | .error err => err ++ "\n"
  | .pathNotExits d => "path not exits " ++ d ++ "\n"
  | .nothingToChange o n => "Failed!\n" ++ o ++ " = " ++ n ++ "\nNothing to change!\n"
  | .success o n => "Success!\nChanged chainId from " ++ o ++ " to " ++ n ++ "\n"

/-- What a run does that can be observed, in order. -/
inductive Event where
  /-- Go `cms.LoadLatestVersion()` was called and returned `err` -/
  | loadLatestVersion (err : Option Error)
  /-- the consensus state was loaded -/
  | stateLoaded (state : State)
  /-- Go `blockStore.LoadSeenCommit(height)` returned `commit` -/
  | seenCommitLoaded (height : Int) (commit : Option Commit)
  /-- the re-signing loop ran and stopped with `commit` in memory -/
  | resigned (commit : Commit) (abort : Option String)
  /-- Go `blockStore.SaveSeenCommit(height, commit)` was called and returned `err` -/
  | saveSeenCommit (height : Int) (commit : Commit) (err : Option Error)
  /-- Go `stateStore.Save(state)` was called and returned `err` -/
  | saveState (state : State) (err : Option Error)
  /-- a message was printed -/
  | print (out : Output)
  deriving DecidableEq, Repr

/-- How a run ends. -/
inductive Exit where
  /-- Go `main` returned -/
  | returned
  /-- a Go `panic` ended the process -/
  | panicked (msg : String)
  deriving DecidableEq, Repr

/-- A run: its events and its end. -/
structure Run where
  events : List Event
  exit : Exit
  deriving DecidableEq, Repr

/-- The message of Go's nil-dereference failure. -/
def nilDereference : String :=
  "runtime error: invalid memory address or nil pointer dereference"

/-- The function `main`. The comment `save last hash` of line 111 stands over
the statement that keeps the old chain id for the comparison and the
messages: no hash is kept, and `state.AppHash` is overwritten at line 145. -/
def main (w : World) : Run :=
  if w.home = "" ∨ w.chainId = "" ∨ w.keys = "" then
    ⟨[.print .usage], .returned⟩
  else if IsValidChainID w.chainId = false then
    ⟨[.print .invalidChainId], .returned⟩
  else
  match readKeys (w.readFile w.keys) with
  | .failed err => ⟨[.print (.error err)], .returned⟩
  | .panicked msg => ⟨[], .panicked msg⟩
  | .ok pvs =>
  let d := w.stateDBPath
  match Exists (w.stat d) with
  | none => ⟨[], .panicked nilDereference⟩
  | some false => ⟨[.print (.pathNotExits d)], .returned⟩
  | some true =>
  match initAppDBs w.dbProvider with
  | some err => ⟨[.print (.error err)], .returned⟩
  | none =>
  let ev1 := [Event.loadLatestVersion w.loadLatestVersion]
  match initDBs w.dbProvider with
  | some err => ⟨ev1 ++ [.print (.error err)], .returned⟩
  | none =>
  match w.loadState with
  | .error err => ⟨ev1 ++ [.print (.error err)], .returned⟩
  | .ok state =>
  let ev2 := ev1 ++ [Event.stateLoaded state]
  let oldChainId := state.ChainID
  if oldChainId = w.chainId then
    ⟨ev2 ++ [.print (.nothingToChange oldChainId w.chainId)], .returned⟩
  else
  let lastBlockHeight := state.LastBlockHeight
  let ev3 := ev2 ++ [Event.seenCommitLoaded lastBlockHeight (w.loadSeenCommit lastBlockHeight)]
  match w.loadSeenCommit lastBlockHeight with
  | none => ⟨ev3, .panicked nilDereference⟩
  | some loaded =>
  let r := resign w.crypto w.chainId pvs loaded
  let lastCommit := r.1
  let ev4 := ev3 ++ [Event.resigned lastCommit r.2]
  match r.2 with
  | some msg => ⟨ev4, .panicked msg⟩
  | none =>
  let err := w.saveSeenCommit lastBlockHeight lastCommit
  let ev5 := ev4 ++ [Event.saveSeenCommit lastBlockHeight lastCommit err]
  match err with
  | some err => ⟨ev5 ++ [.print (.error err)], .returned⟩
  | none =>
  let state1 := { state with ChainID := w.chainId }
  let state2 := { state1 with AppHash := w.lastCommitHash }
  let err := w.saveState state2
  let ev6 := ev5 ++ [Event.saveState state2 err]
  match err with
  | some err => ⟨ev6 ++ [.print (.error err)], .returned⟩
  | none => ⟨ev6 ++ [.print (.success oldChainId w.chainId)], .returned⟩

/-- The event is a write to the block store or to the state store. -/
def Event.isWrite : Event → Bool
  | .saveSeenCommit _ _ _ => true
  | .saveState _ _ => true
  | _ => false

/-- The event belongs to the re-signing step: the seen commit is loaded or
the loop runs. -/
def Event.isResign : Event → Bool
  | .seenCommitLoaded _ _ => true
  | .resigned _ _ => true
  | _ => false

/-! ## Notions used to state the properties -/

/-- A slot with its signature bytes blanked. -/
def CommitSig.withoutSignature (s : CommitSig) : CommitSig :=
  { s with Signature := [] }

/-- A commit with the signature bytes of every slot blanked: what is left is
the height, the round, the block id and, slot by slot, in order, the flag, the
validator address and the timestamp. -/
def Commit.withoutSignatures (c : Commit) : Commit :=
  { c with Signatures := c.Signatures.map CommitSig.withoutSignature }

/-- The ed25519 library accepts the key: it has 64 bytes and its public half,
the bytes from 32 on, is not all zero. -/
def MockPV.accepted (pv : MockPV) : Bool :=
  pv.PrivKey.length == 64 && !(pv.PrivKey.drop 32).all (fun v => v == 0)

/-- The derived address of an accepted key: the hash of its public half. -/
def MockPV.addressOf (cr : Crypto) (pv : MockPV) : Bytes :=
  cr.sumTruncated (pv.PrivKey.drop 32)

/-- Some identity of the list has the derived address `a`. -/
def hasSigner (cr : Crypto) (pvs : List MockPV) (a : Bytes) : Bool :=
  pvs.any (fun pv => decide (MockPV.address cr pv = .ok a))

/-- A stand-in for the arithmetic of the libraries, with their sizes: the
address is the first 20 bytes of the public key, the signature has 64 bytes
and depends on the seed half of the key and on the message. -/
def demoCrypto : Crypto where
  sumTruncated := fun pubKey => pubKey.take 20
  ed25519Sign := fun k msg => k.take 32 ++ List.replicate 32 (msg.foldl (fun a b => a + b) 0 % 256)
  voteSignBytes := fun chainID v =>
    chainID.data.map Char.toNat ++
      [v.MsgType, v.Height.toNat, v.Round.toNat, v.Timestamp.toNat] ++ v.BlockID.Hash

/-- The events of a run up to and including the load of the consensus state. -/
def eventsToState (w : World) (st : State) : List Event :=
  [Event.loadLatestVersion w.loadLatestVersion, Event.stateLoaded st]

/-- The events of a run up to and including the re-signing loop. -/
def eventsToResign (w : World) (pvs : List MockPV) (st : State) (c : Commit) : List Event :=
  eventsToState w st ++
    [Event.seenCommitLoaded st.LastBlockHeight (some c),
      Event.resigned (resign w.crypto w.chainId pvs c).1 (resign w.crypto w.chainId pvs c).2]

/-- The state record that `main` hands to `stateStore.Save`. -/
def updatedState (w : World) (st : State) : State :=
  { st with ChainID := w.chainId, AppHash := w.lastCommitHash }

/-! ## Sample data -/

/-- A key: seed bytes `1`, public half `7`. -/
def demoKey1 : Bytes := List.replicate 32 1 ++ List.replicate 32 7

/-- A key with the public half of `demoKey1` and another seed. -/
def demoKey2 : Bytes := List.replicate 32 2 ++ List.replicate 32 7

/-- A key: seed bytes `3`, public half `9`. -/
def demoKey3 : Bytes := List.replicate 32 3 ++ List.replicate 32 9

/-- A byte string of three bytes: no ed25519 key, yet `readKeys` loads it. -/
def demoShortKey : Bytes := [1, 2, 3]

/-- A commit at height 100 with two slots, for the addresses of `demoKey1`
and `demoKey3`. -/
def demoCommit : Commit :=
  { Height := 100
    Round := 0
    BlockID := ⟨List.replicate 32 170, ⟨1, List.replicate 32 204⟩⟩
    Signatures :=
      [ ⟨.Commit, List.replicate 20 7, 1000, List.replicate 64 5⟩,
        ⟨.Commit, List.replicate 20 9, 1001, List.replicate 64 6⟩ ] }

/-- A consensus state at height 100 for the chain `abc_1-1`. -/
def demoState : State :=
  { Version := [11]
    ChainID := "abc_1-1"
    InitialHeight := 1
    LastBlockHeight := 100
    LastBlockID := ⟨List.replicate 32 170, ⟨1, List.replicate 32 204⟩⟩
    LastBlockTime := 1000
    NextValidators := [1]
    Validators := [1]
    LastValidators := [1]
    LastHeightValidatorsChanged := 1
    ConsensusParams := [2]
    LastHeightConsensusParamsChanged := 1
    LastResultsHash := List.replicate 32 3
    AppHash := List.replicate 32 4 }

/-- A run in which every library call succeeds: the node of `demoState` and
`demoCommit`, a key file with `demoKey1` and `demoKey3`, the new chain id
`abc_1-2`. -/
def demoWorld : World :=
  { home := "/node"
    chainId := "abc_1-2"
    keys := "keys.txt"
    readFile := fun _ => .ok (fileText [.key demoKey1, .blank [' '], .key demoKey3])
    stateDBPath := "/node/data/state.db"
    stat := fun _ => .info true
    dbProvider := fun _ => none
    loadLatestVersion := none
    lastCommitHash := List.replicate 32 8
    loadState := .ok demoState
    loadSeenCommit := fun _ => some demoCommit
    saveSeenCommit := fun _ _ => none
    saveState := fun _ => none
    crypto := demoCrypto }

/-- The run of `demoWorld` with a key file that holds `demoKey1` only: the
second slot of the commit has no signer. -/
def demoWorldMissingSigner : World :=
  { demoWorld with readFile := fun _ => .ok (fileText [.key demoKey1]) }

/-- The run of `demoWorld` asked for the chain id the node already has. -/
def demoWorldSameId : World :=
  { demoWorld with chainId := "abc_1-1" }

/-- The run of `demoWorld` in which `cms.LoadLatestVersion()` returns an
error, so that the multi-store has no commit id to report. -/
def demoWorldLoadVersionFails : World :=
  { demoWorld with
    loadLatestVersion := some "failed to load latest version"
    lastCommitHash := [] }

/-- The run of `demoWorld` with a key file that holds `demoShortKey` and then
`demoKey1`: the second slot of the commit has no signer, and the first key is
one the library refuses. -/
def demoWorldShortKey : World :=
  { demoWorld with readFile := fun _ => .ok (fileText [.key demoShortKey, .key demoKey1]) }

/-! # Theorems -/

/-! ## Lemmas on the matcher -/

theorem mem_classStep (P : Char → Bool) (p q : Pos) :
    q ∈ classStep P p ↔ ∃ c, P c = true ∧ p.2 = c :: q.2 ∧ q.1 = p.1 + 1 := by
  obtain ⟨n, cs⟩ := p
  obtain ⟨m, ds⟩ := q
  cases cs with
  | nil => simp [classStep]
  | cons c cs =>
    by_cases h : P c = true
    · simp only [classStep, h, if_true, List.mem_singleton, Prod.mk.injEq, List.cons.injEq]
      constructor
      · rintro ⟨rfl, rfl⟩
        exact ⟨c, h, ⟨rfl, rfl⟩, rfl⟩
      · rintro ⟨c1, -, ⟨rfl, rfl⟩, rfl⟩
        exact ⟨rfl, rfl⟩
    · simp only [classStep, h, List.cons.injEq]
      constructor
      · intro hq
        simp at hq
      · rintro ⟨c1, h1, ⟨rfl, rfl⟩, -⟩
        exact absurd h1 h

theorem mem_closure_classStep (P : Char → Bool) (q : Pos) :
    ∀ (fuel : Nat) (p : Pos), p.2.length ≤ fuel →
      (q ∈ closure (classStep P) fuel p ↔
        ∃ pre, (∀ c ∈ pre, P c = true) ∧ p.2 = pre ++ q.2 ∧ q.1 = p.1 + pre.length) := by
  intro fuel
  induction fuel with
  | zero =>
    intro p hp
    have hnil : p.2 = [] := List.length_eq_zero.mp (Nat.le_zero.mp hp)
    simp only [closure, List.mem_singleton]
    constructor
    · rintro rfl
      exact ⟨[], by simp, by simp, by simp⟩
    · rintro ⟨pre, -, h2, h3⟩
      rw [hnil] at h2
      have hpre : pre = [] := (List.append_eq_nil.mp h2.symm).1
      have hq : q.2 = [] := (List.append_eq_nil.mp h2.symm).2
      subst hpre
      exact Prod.ext (by simpa using h3) (by rw [hq, hnil])
  | succ fuel ih =>
    intro p hp
    simp only [closure, List.mem_cons, List.mem_flatMap]
    constructor
    · rintro (rfl | ⟨r, hr, hq⟩)
      · exact ⟨[], by simp, by simp, by simp⟩
      · obtain ⟨c, hc, hp2, hr1⟩ := (mem_classStep P p r).mp hr
        have hlen : r.2.length ≤ fuel := by
          have := congrArg List.length hp2
          simp at this
          omega
        obtain ⟨pre, hpre, h2, h3⟩ := (ih r hlen).mp hq
        refine ⟨c :: pre, ?_, ?_, ?_⟩
        · intro x hx
          rcases List.mem_cons.mp hx with rfl | hx
          · exact hc
          · exact hpre x hx
        · rw [hp2, h2]; rfl
        · rw [h3, hr1]; simp; omega
    · rintro ⟨pre, hpre, h2, h3⟩
      cases pre with
      | nil =>
        left
        exact Prod.ext (by simpa using h3) (by simpa using h2.symm)
      | cons c pre =>
        right
        refine ⟨(p.1 + 1, pre ++ q.2), ?_, ?_⟩
        · exact (mem_classStep P p _).mpr ⟨c, hpre c (List.mem_cons_self _ _), h2, rfl⟩
        · have hlen : (pre ++ q.2).length ≤ fuel := by
            have := congrArg List.length h2
            simp at this
            simp
            omega
          refine (ih _ hlen).mpr ⟨pre, ?_, rfl, ?_⟩
          · intro x hx
            exact hpre x (List.mem_cons_of_mem _ hx)
          · rw [h3]; simp; omega

theorem mem_times_one (f : Pos → List Pos) (p q : Pos) :
    q ∈ times f 1 p ↔ q ∈ f p := by
  simp [times]

theorem inRange_iff (lo hi c : Char) : inRange lo hi c = true ↔ lo ≤ c ∧ c ≤ hi := by
  simp [inRange]

theorem step_range (lo hi : Char) :
    (fun q => Regex.step (.range lo hi) q) = classStep (inRange lo hi) := by
  funext q
  simp only [Regex.step]

theorem step_lit (c : Char) :
    (fun q => Regex.step (.lit c) q) = classStep (fun x => x == c) := by
  funext q
  simp [Regex.step]

/-- One or more runes of a class. -/
theorem mem_step_atLeast_one (lo hi : Char) (p q : Pos) :
    q ∈ Regex.step (.atLeast (.range lo hi) 1) p ↔
      ∃ w, w ≠ [] ∧ (∀ c ∈ w, lo ≤ c ∧ c ≤ hi) ∧ p.2 = w ++ q.2 ∧ q.1 = p.1 + w.length := by
  simp only [Regex.step, step_range, List.mem_flatMap, mem_times_one]
  constructor
  · rintro ⟨r, hr, hq⟩
    obtain ⟨c, hc, hp2, hr1⟩ := (mem_classStep _ p r).mp hr
    obtain ⟨pre, hpre, h2, h3⟩ := (mem_closure_classStep _ q _ r (le_refl _)).mp hq
    refine ⟨c :: pre, by simp, ?_, ?_, ?_⟩
    · intro x hx
      rcases List.mem_cons.mp hx with rfl | hx
      · exact (inRange_iff lo hi _).mp hc
      · exact (inRange_iff lo hi x).mp (hpre x hx)
    · rw [hp2, h2]; rfl
    · rw [h3, hr1]; simp; omega
  · rintro ⟨w, hw, hall, h2, h3⟩
    cases w with
    | nil => exact absurd rfl hw
    | cons c pre =>
      refine ⟨(p.1 + 1, pre ++ q.2), ?_, ?_⟩
      · exact (mem_classStep _ p _).mpr
          ⟨c, (inRange_iff lo hi c).mpr (hall c (List.mem_cons_self _ _)), h2, rfl⟩
      · refine (mem_closure_classStep _ q _ _ (le_refl _)).mpr ⟨pre, ?_, rfl, ?_⟩
        · intro x hx
          exact (inRange_iff lo hi x).mpr (hall x (List.mem_cons_of_mem _ hx))
        · rw [h3]; simp; omega

/-- Exactly one given rune. -/
theorem mem_step_exactly_one (c : Char) (p q : Pos) :
    q ∈ Regex.step (.exactly (.lit c) 1) p ↔ p.2 = c :: q.2 ∧ q.1 = p.1 + 1 := by
  simp only [Regex.step, step_lit, mem_times_one, mem_classStep]
  constructor
  · rintro ⟨x, hx, h2, h3⟩
    have : x = c := by simpa using hx
    subst this
    exact ⟨h2, h3⟩
  · rintro ⟨h2, h3⟩
    exact ⟨c, by simp, h2, h3⟩

/-- A rune of `[lo-hi]` followed by any number of runes of `[lo2-hi2]`. -/
theorem mem_step_cat_range_star (lo hi lo2 hi2 : Char) (p q : Pos) :
    q ∈ Regex.step (.cat (.range lo hi) (.star (.range lo2 hi2))) p ↔
      ∃ d rest, (lo ≤ d ∧ d ≤ hi) ∧ (∀ c ∈ rest, lo2 ≤ c ∧ c ≤ hi2) ∧
        p.2 = d :: rest ++ q.2 ∧ q.1 = p.1 + (rest.length + 1) := by
  have h1 : ∀ x, Regex.step (.range lo hi) x = classStep (inRange lo hi) x :=
    fun x => congrFun (step_range lo hi) x
  simp only [Regex.step, step_range, List.mem_flatMap]
  constructor
  · rintro ⟨r, hr, hq⟩
    obtain ⟨c, hc, hp2, hr1⟩ := (mem_classStep _ p r).mp hr
    obtain ⟨pre, hpre, h2, h3⟩ := (mem_closure_classStep _ q _ r (le_refl _)).mp hq
    refine ⟨c, pre, (inRange_iff lo hi _).mp hc, ?_, ?_, ?_⟩
    · intro x hx
      exact (inRange_iff lo2 hi2 x).mp (hpre x hx)
    · rw [hp2, h2]; rfl
    · rw [h3, hr1]; omega
  · rintro ⟨d, rest, hd, hall, h2, h3⟩
    refine ⟨(p.1 + 1, rest ++ q.2), ?_, ?_⟩
    · exact (mem_classStep _ p _).mpr ⟨d, (inRange_iff lo hi d).mpr hd, h2, rfl⟩
    · refine (mem_closure_classStep _ q _ _ (le_refl _)).mpr ⟨rest, ?_, rfl, ?_⟩
      · intro x hx
        exact (inRange_iff lo2 hi2 x).mpr (hall x hx)
      · rw [h3]; simp; omega

theorem matchString_iff (re : Regex) (s : String) :
    re.MatchString s = true ↔
      ∃ i, i ≤ s.data.length ∧ ∃ q, q ∈ re.step (i, s.data.drop i) := by
  simp only [Regex.MatchString, List.any_eq_true, List.mem_range, Bool.not_eq_true',
    List.isEmpty_eq_false]
  constructor
  · rintro ⟨i, hi, hne⟩
    exact ⟨i, by omega, List.exists_mem_of_ne_nil _ hne⟩
  · rintro ⟨i, hi, q, hq⟩
    exact ⟨i, by omega, List.ne_nil_of_mem hq⟩

theorem mem_step_cat (r t : Regex) (p q : Pos) :
    q ∈ Regex.step (.cat r t) p ↔ ∃ m, m ∈ r.step p ∧ q ∈ t.step m := by
  simp only [Regex.step, List.mem_flatMap]

theorem step_group (r : Regex) (p : Pos) : Regex.step (.group r) p = r.step p := by
  simp only [Regex.step]

theorem mem_step_beginText (p q : Pos) :
    q ∈ Regex.step .beginText p ↔ p.1 = 0 ∧ q = p := by
  by_cases h : p.1 = 0 <;> simp [Regex.step, h]

theorem mem_step_endText (p q : Pos) :
    q ∈ Regex.step .endText p ↔ p.2 = [] ∧ q = p := by
  by_cases h : p.2 = [] <;> simp [Regex.step, h]

theorem mem_step_ethermintChainID (p q : Pos) :
    q ∈ ethermintChainID.step p ↔
      p.1 = 0 ∧ ∃ p1, p1 ∈ regexChainID.step p ∧
        ∃ p2, p2 ∈ regexEIP155Separator.step p1 ∧
          ∃ p3, p3 ∈ regexEIP155.step p2 ∧
            ∃ p4, p4 ∈ regexEpochSeparator.step p3 ∧
              q ∈ regexEpoch.step p4 ∧ q.2 = [] := by
  rw [ethermintChainID]
  simp only [mem_step_cat, step_group, mem_step_beginText, mem_step_endText]
  constructor
  · rintro ⟨m, ⟨h0, rfl⟩, p1, h1, p2, h2, p3, h3, p4, h4, p5, h5, h6, rfl⟩
    exact ⟨h0, p1, h1, p2, h2, p3, h3, p4, h4, h5, h6⟩
  · rintro ⟨h0, p1, h1, p2, h2, p3, h3, p4, h4, h5, h6⟩
    exact ⟨p, ⟨h0, rfl⟩, p1, h1, p2, h2, p3, h3, p4, h4, q, h5, h6, rfl⟩

theorem char_le_iff (a b : Char) : a ≤ b ↔ a.toNat ≤ b.toNat := Iff.rfl

theorem char_eq_iff (a b : Char) : a = b ↔ a.toNat = b.toNat := by
  constructor
  · rintro rfl; rfl
  · intro h
    exact Char.ext (UInt32.ext h)

theorem le_foldl_decimal (ds : List Char) :
    ∀ acc : Nat, acc ≤ ds.foldl (fun acc c => acc * 10 + (c.toNat - '0'.toNat)) acc := by
  induction ds with
  | nil => intro acc; exact le_refl _
  | cons d ds ih =>
    intro acc
    simp only [List.foldl_cons]
    exact le_trans (by omega) (ih _)

/-- The class sequence `[1-9][0-9]*` describes the positive decimal integers
written without a leading zero. -/
theorem positiveInteger_iff (w : List Char) :
    (∃ d rest, ('1' ≤ d ∧ d ≤ '9') ∧ (∀ c ∈ rest, '0' ≤ c ∧ c ≤ '9') ∧ w = d :: rest) ↔
      PositiveIntegerNoLeadingZero w := by
  have e0 : '0'.toNat = 48 := rfl
  have e1 : '1'.toNat = 49 := rfl
  constructor
  · rintro ⟨d, rest, ⟨hd1, hd9⟩, hall, rfl⟩
    refine ⟨by simp, ?_, ?_, ?_⟩
    · intro c hc
      rcases List.mem_cons.mp hc with rfl | hc
      · exact ⟨le_trans (by decide) hd1, hd9⟩
      · exact hall c hc
    · intro h
      have hd : d = '0' := by simpa using h
      subst hd
      exact absurd hd1 (by decide)
    · have h49 : 49 ≤ d.toNat := by
        have := (char_le_iff _ _).mp hd1
        omega
      have := le_foldl_decimal rest (0 * 10 + (d.toNat - '0'.toNat))
      simp only [decimalValue, List.foldl_cons]
      omega
  · rintro ⟨hne, hall, hhead, -⟩
    cases w with
    | nil => exact absurd rfl hne
    | cons d rest =>
      have hd := hall d (List.mem_cons_self _ _)
      have hd0 : d ≠ '0' := by
        intro h
        exact hhead (by simp [h])
      refine ⟨d, rest, ⟨?_, hd.2⟩, ?_, rfl⟩
      · have h1 := (char_le_iff _ _).mp hd.1
        have h2 : d.toNat ≠ '0'.toNat := fun h => hd0 ((char_eq_iff _ _).mpr h)
        rw [char_le_iff]
        omega
      · intro c hc
        exact hall c (List.mem_cons_of_mem _ hc)

/-- The compiled pattern accepts exactly the texts of the grammar. -/
theorem matchString_ethermintChainID (s : String) :
    ethermintChainID.MatchString s = true ↔ ChainIDGrammar s := by
  rw [matchString_iff]
  simp only [mem_step_ethermintChainID]
  unfold regexChainID regexEIP155Separator regexEIP155 regexEpochSeparator regexEpoch
  simp only [mem_step_atLeast_one, mem_step_exactly_one, mem_step_cat_range_star]
  constructor
  · rintro ⟨i, -, q, hi, p1, ⟨w1, hw1, hall1, e1, -⟩, p2, ⟨e2, -⟩, p3,
      ⟨d3, r3, hd3, hr3, e3, -⟩, p4, ⟨e4, -⟩, ⟨d5, r5, hd5, hr5, e5, -⟩, e6⟩
    have hi0 : i = 0 := hi
    subst hi0
    simp only [List.drop_zero] at e1
    refine ⟨w1, d3 :: r3, d5 :: r5, ?_, hw1, hall1, ?_, ?_⟩
    · rw [e1, e2, e3, e4, e5, e6]
      simp
    · exact (positiveInteger_iff _).mp ⟨d3, r3, hd3, hr3, rfl⟩
    · exact (positiveInteger_iff _).mp ⟨d5, r5, hd5, hr5, rfl⟩
  · rintro ⟨name, eip, epoch, hs, hname, hall, heip, hepoch⟩
    obtain ⟨d3, r3, hd3, hr3, rfl⟩ := (positiveInteger_iff _).mpr heip
    obtain ⟨d5, r5, hd5, hr5, rfl⟩ := (positiveInteger_iff _).mpr hepoch
    refine ⟨0, Nat.zero_le _, (name.length + 1 + (r3.length + 1) + 1 + (r5.length + 1), []),
      rfl, (name.length, '_' :: (d3 :: r3) ++ '-' :: (d5 :: r5)), ?_,
      (name.length + 1, (d3 :: r3) ++ '-' :: (d5 :: r5)), ?_,
      (name.length + 1 + (r3.length + 1), '-' :: (d5 :: r5)), ?_,
      (name.length + 1 + (r3.length + 1) + 1, d5 :: r5), ?_, ?_, rfl⟩
    · exact ⟨name, hname, hall, by simp [hs], by simp⟩
    · exact ⟨by simp, rfl⟩
    · exact ⟨d3, r3, hd3, hr3, by simp, rfl⟩
    · exact ⟨rfl, rfl⟩
    · exact ⟨d5, r5, hd5, hr5, by simp, rfl⟩

theorem length_le_utf8ByteSize (s : String) : s.length ≤ s.utf8ByteSize := by
  obtain ⟨l⟩ := s
  show l.length ≤ String.utf8ByteSize.go l
  induction l with
  | nil => simp [String.utf8ByteSize.go]
  | cons c cs ih =>
    have := Char.utf8Size_pos c
    simp only [String.utf8ByteSize.go, List.length_cons]
    omega

/-! ## Lemmas on the re-signing loop -/

theorem setSlotSignature_length (l : List CommitSig) (i : Nat) (sig : Bytes) :
    (setSlotSignature l i sig).length = l.length := by
  induction l generalizing i with
  | nil => rfl
  | cons s ss ih =>
    cases i with
    | zero => rfl
    | succ i => simp [setSlotSignature, ih]

theorem setSlotSignature_map_without (l : List CommitSig) (i : Nat) (sig : Bytes) :
    (setSlotSignature l i sig).map CommitSig.withoutSignature =
      l.map CommitSig.withoutSignature := by
  induction l generalizing i with
  | nil => rfl
  | cons s ss ih =>
    cases i with
    | zero => simp [setSlotSignature, CommitSig.withoutSignature]
    | succ i => simp [setSlotSignature, ih]

theorem getElem?_setSlotSignature_ne (l : List CommitSig) (i j : Nat) (sig : Bytes)
    (h : j ≠ i) : (setSlotSignature l i sig)[j]? = l[j]? := by
  induction l generalizing i j with
  | nil => rfl
  | cons s ss ih =>
    cases i with
    | zero =>
      cases j with
      | zero => exact absurd rfl h
      | succ j => simp [setSlotSignature]
    | succ i =>
      cases j with
      | zero => simp [setSlotSignature]
      | succ j =>
        simp only [setSlotSignature, List.getElem?_cons_succ]
        exact ih i j (fun e => h (by rw [e]))

theorem getElem?_setSlotSignature_self (l : List CommitSig) (i : Nat) (sig : Bytes) :
    (setSlotSignature l i sig)[i]? = (l[i]?).map (fun s => { s with Signature := sig }) := by
  induction l generalizing i with
  | nil => rfl
  | cons s ss ih =>
    cases i with
    | zero => simp [setSlotSignature]
    | succ i =>
      simp only [setSlotSignature, List.getElem?_cons_succ]
      exact ih i

theorem drop_setSlotSignature (l : List CommitSig) (i : Nat) (sig : Bytes) :
    (setSlotSignature l i sig).drop (i + 1) = l.drop (i + 1) := by
  induction l generalizing i with
  | nil => rfl
  | cons s ss ih =>
    cases i with
    | zero => simp [setSlotSignature]
    | succ i =>
      simp only [setSlotSignature, List.drop_succ_cons]
      exact ih i

theorem privKey_sign_eq (cr : Crypto) (privKey msg : Bytes) :
    PrivKey.Sign cr privKey msg =
      if privKey.length = 64 then .ok (cr.ed25519Sign privKey msg)
      else .panicked badPrivateKeyLength := by
  unfold PrivKey.Sign
  by_cases h : privKey.length = 64 <;> simp [h]

theorem signVote_eq (cr : Crypto) (pv : MockPV) (chainId : String) (v : ProtoVote) :
    pv.SignVote cr chainId v =
      if pv.PrivKey.length = 64 then
        .ok { v with Signature := cr.ed25519Sign pv.PrivKey (cr.voteSignBytes chainId v) }
      else .panicked badPrivateKeyLength := by
  simp only [MockPV.SignVote, privKey_sign_eq]
  by_cases h : pv.PrivKey.length = 64 <;> simp [h]

/-- The address of an accepted key is the hash of its public half. -/
theorem address_of_accepted (cr : Crypto) (pv : MockPV) (h : pv.accepted = true) :
    MockPV.address cr pv = .ok (pv.addressOf cr) := by
  simp only [MockPV.accepted, Bool.and_eq_true, beq_iff_eq, Bool.not_eq_true'] at h
  obtain ⟨hlen, hall⟩ := h
  have hdrop : (pv.PrivKey.drop 32).length = 32 := by simp [hlen]
  have htake : (pv.PrivKey.drop 32).take 32 = pv.PrivKey.drop 32 :=
    List.take_of_length_le (by omega)
  have hlt : ¬ pv.PrivKey.length < 32 := by omega
  simp only [MockPV.address, PrivKey.PubKey, hlt, if_false, hall, htake, hdrop,
    Nat.sub_self, List.replicate_zero, List.append_nil, PubKey.Address, Bool.false_eq_true,
    ne_eq, not_true_eq_false, MockPV.addressOf]

theorem signVote_of_accepted (cr : Crypto) (pv : MockPV) (chainId : String) (v : ProtoVote)
    (h : pv.accepted = true) :
    pv.SignVote cr chainId v =
      .ok { v with Signature := cr.ed25519Sign pv.PrivKey (cr.voteSignBytes chainId v) } := by
  simp only [MockPV.accepted, Bool.and_eq_true, beq_iff_eq] at h
  rw [signVote_eq, if_pos h.1]

/-- When the inner loop ends with `found`, an identity of the list has the
slot's address, its key has 64 bytes, and the slot holds its signature. -/
theorem signWithFirstMatch_found_spec (cr : Crypto) (chainId : String) (idx : Nat)
    (v : ProtoVote) :
    ∀ (pvs : List MockPV) (c c1 : Commit),
      signWithFirstMatch cr chainId idx v pvs c = (c1, .found) →
      ∃ pv ∈ pvs, MockPV.address cr pv = .ok v.ValidatorAddress ∧
        pv.PrivKey.length = 64 ∧
        c1 = c.setSignature idx (cr.ed25519Sign pv.PrivKey (cr.voteSignBytes chainId v))
  | [], c, c1, h => by simp [signWithFirstMatch] at h
  | pv :: pvs, c, c1, h => by
    have ih := signWithFirstMatch_found_spec cr chainId idx v pvs c c1
    cases ha : MockPV.address cr pv with
    | panicked msg => simp [signWithFirstMatch, ha] at h
    | ok address =>
      by_cases heq : address = v.ValidatorAddress
      · subst heq
        by_cases hlen : pv.PrivKey.length = 64
        · simp only [signWithFirstMatch, ha, if_true, signVote_eq, hlen, Prod.mk.injEq,
            and_true] at h
          exact ⟨pv, List.mem_cons_self _ _, ha, hlen, h.symm⟩
        · simp [signWithFirstMatch, ha, signVote_eq, hlen] at h
      · simp only [signWithFirstMatch, ha, heq, if_false] at h
        obtain ⟨q, hq, h1, h2, h3⟩ := ih h
        exact ⟨q, List.mem_cons_of_mem _ hq, h1, h2, h3⟩

/-- With accepted keys the inner loop signs with the first identity of the
list whose derived address is the slot's validator address. -/
theorem signWithFirstMatch_eq (cr : Crypto) (chainId : String) (idx : Nat) (v : ProtoVote)
    (pvs : List MockPV) (c : Commit) (hacc : ∀ pv ∈ pvs, pv.accepted = true) :
    signWithFirstMatch cr chainId idx v pvs c =
      match pvs.find? (fun pv => decide (pv.addressOf cr = v.ValidatorAddress)) with
      | none => (c, .notFound)
      | some pv =>
        (c.setSignature idx (cr.ed25519Sign pv.PrivKey (cr.voteSignBytes chainId v)),
          .found) := by
  induction pvs with
  | nil => rfl
  | cons pv pvs ih =>
    have hpv := hacc pv (List.mem_cons_self _ _)
    have ih1 := ih (fun q hq => hacc q (List.mem_cons_of_mem _ hq))
    by_cases h : pv.addressOf cr = v.ValidatorAddress
    · simp [signWithFirstMatch, address_of_accepted cr pv hpv, h,
        signVote_of_accepted cr pv chainId v hpv]
    · simp [signWithFirstMatch, address_of_accepted cr pv hpv, h, ih1]

theorem hasSigner_of_accepted (cr : Crypto) (pvs : List MockPV) (a : Bytes)
    (hacc : ∀ pv ∈ pvs, pv.accepted = true) :
    hasSigner cr pvs a = pvs.any (fun pv => decide (pv.addressOf cr = a)) := by
  induction pvs with
  | nil => rfl
  | cons pv pvs ih =>
    have hpv := hacc pv (List.mem_cons_self _ _)
    have ih1 := ih (fun q hq => hacc q (List.mem_cons_of_mem _ hq))
    simp only [hasSigner, List.any_cons] at ih1 ⊢
    rw [ih1, address_of_accepted cr pv hpv]
    simp

theorem signWithFirstMatch_found (cr : Crypto) (chainId : String) (idx : Nat) (v : ProtoVote)
    (pvs : List MockPV) (c : Commit) (hacc : ∀ pv ∈ pvs, pv.accepted = true) :
    (signWithFirstMatch cr chainId idx v pvs c).2 =
      if hasSigner cr pvs v.ValidatorAddress = true then .found else .notFound := by
  rw [signWithFirstMatch_eq cr chainId idx v pvs c hacc, hasSigner_of_accepted cr pvs _ hacc]
  cases hf : pvs.find? (fun pv => decide (pv.addressOf cr = v.ValidatorAddress)) with
  | none =>
    have : pvs.any (fun pv => decide (pv.addressOf cr = v.ValidatorAddress)) = false := by
      rw [List.any_eq_false]
      intro x hx
      have := List.find?_eq_none.mp hf x hx
      simpa using this
    simp [this]
  | some pv =>
    have : pvs.any (fun pv => decide (pv.addressOf cr = v.ValidatorAddress)) = true := by
      rw [List.any_eq_true]
      have hp := List.find?_some hf
      exact ⟨pv, List.mem_of_find?_eq_some hf, hp⟩
    simp [this]

theorem signWithFirstMatch_frame (cr : Crypto) (chainId : String) (idx : Nat) (v : ProtoVote)
    (pvs : List MockPV) (c : Commit) :
    (signWithFirstMatch cr chainId idx v pvs c).1.withoutSignatures = c.withoutSignatures := by
  induction pvs with
  | nil => rfl
  | cons pv pvs ih =>
    cases ha : MockPV.address cr pv with
    | panicked msg => simp [signWithFirstMatch, ha]
    | ok address =>
      by_cases heq : address = v.ValidatorAddress
      · by_cases hlen : pv.PrivKey.length = 64
        · simp [signWithFirstMatch, ha, heq, signVote_eq, hlen, Commit.withoutSignatures,
            Commit.setSignature, setSlotSignature_map_without]
        · simp [signWithFirstMatch, ha, heq, signVote_eq, hlen]
      · simp only [signWithFirstMatch, ha, heq, if_false]
        exact ih

theorem resignSlots_frame (cr : Crypto) (chainId : String) (pvs : List MockPV)
    (idxs : List Nat) :
    ∀ c : Commit, (resignSlots cr chainId pvs idxs c).1.withoutSignatures = c.withoutSignatures := by
  induction idxs with
  | nil => intro c; rfl
  | cons idx rest ih =>
    intro c
    simp only [resignSlots]
    split
    · rfl
    · split
      · exact signWithFirstMatch_frame _ _ _ _ _ _
      · exact signWithFirstMatch_frame _ _ _ _ _ _
      · rw [ih]
        exact signWithFirstMatch_frame _ _ _ _ _ _

theorem withoutSignatures_length {c c1 : Commit}
    (h : c1.withoutSignatures = c.withoutSignatures) :
    c1.Signatures.length = c.Signatures.length := by
  have := congrArg (fun x => x.Signatures.length) h
  simpa [Commit.withoutSignatures] using this

theorem withoutSignatures_getElem? {c c1 : Commit}
    (h : c1.withoutSignatures = c.withoutSignatures) (i : Nat) :
    (c1.Signatures[i]?).map CommitSig.withoutSignature =
      (c.Signatures[i]?).map CommitSig.withoutSignature := by
  have := congrArg (fun x => x.Signatures[i]?) h
  simpa [Commit.withoutSignatures] using this

theorem getVote_setSignature_ne (c : Commit) (i j : Nat) (sig : Bytes) (h : j ≠ i) :
    (c.setSignature i sig).GetVote j = c.GetVote j := by
  simp only [Commit.GetVote, Commit.setSignature, getElem?_setSlotSignature_ne _ _ _ _ h]

theorem getVote_validatorAddress {c : Commit} {i : Nat} {vote : Vote}
    (h : c.GetVote i = some vote) :
    (c.Signatures[i]?).map (fun s => s.ValidatorAddress) = some vote.ValidatorAddress := by
  unfold Commit.GetVote at h
  split at h
  · exact absurd h (by simp)
  · rename_i s hs
    rw [hs]
    simp only [Option.some.injEq] at h
    subst h
    rfl

/-- What a completed pass over distinct slot indices leaves: each slot of the
pass carries the signature of an identity with the slot's address, made with a
key of 64 bytes over the sign-bytes of the slot's vote; the other slots are as
before. -/
theorem resignSlots_completed (cr : Crypto) (chainId : String) (pvs : List MockPV)
    (idxs : List Nat) :
    ∀ (c c1 : Commit), idxs.Nodup → resignSlots cr chainId pvs idxs c = (c1, none) →
      (∀ i ∈ idxs, ∃ vote pv slot1,
        c.GetVote i = some vote ∧ pv ∈ pvs ∧
        MockPV.address cr pv = .ok vote.ValidatorAddress ∧
        pv.PrivKey.length = 64 ∧
        c1.Signatures[i]? = some slot1 ∧
        slot1.Signature = cr.ed25519Sign pv.PrivKey (cr.voteSignBytes chainId vote.ToProto)) ∧
      (∀ i, i ∉ idxs → c1.Signatures[i]? = c.Signatures[i]?) := by
  induction idxs with
  | nil =>
    intro c c1 _ h
    simp only [resignSlots, Prod.mk.injEq, and_true] at h
    subst h
    exact ⟨fun i hi => absurd hi (List.not_mem_nil i), fun i _ => rfl⟩
  | cons idx rest ih =>
    intro c c1 hnd h
    have hidx : idx ∉ rest := (List.nodup_cons.mp hnd).1
    have hrest : rest.Nodup := (List.nodup_cons.mp hnd).2
    cases hvote : c.GetVote idx with
    | none => simp [resignSlots, hvote] at h
    | some vote =>
      cases hres : signWithFirstMatch cr chainId idx vote.ToProto pvs c with
      | mk c2 flag =>
        cases flag with
        | panicked msg => simp [resignSlots, hvote, hres] at h
        | notFound => simp [resignSlots, hvote, hres] at h
        | found =>
          simp only [resignSlots, hvote, hres] at h
          obtain ⟨pv, hpv, haddr, hlen, hc2⟩ :=
            signWithFirstMatch_found_spec cr chainId idx vote.ToProto pvs c c2 hres
          have haddr1 : MockPV.address cr pv = .ok vote.ValidatorAddress := haddr
          subst hc2
          obtain ⟨ih1, ih2⟩ := ih _ c1 hrest h
          constructor
          · intro i hi
            rcases List.mem_cons.mp hi with rfl | hi
            · have hget := ih2 i hidx
              simp only [Commit.setSignature, getElem?_setSlotSignature_self] at hget
              have hslot := getVote_validatorAddress hvote
              cases hs : c.Signatures[i]? with
              | none => rw [hs] at hslot; simp at hslot
              | some s0 =>
                rw [hs] at hget
                exact ⟨vote, pv, _, hvote, hpv, haddr1, hlen, hget, rfl⟩
            · have hne : i ≠ idx := fun e => hidx (e ▸ hi)
              obtain ⟨vote1, pv1, slot1, h1, h2, h3, h4, h5, h6⟩ := ih1 i hi
              rw [getVote_setSignature_ne _ _ _ _ hne] at h1
              exact ⟨vote1, pv1, slot1, h1, h2, h3, h4, h5, h6⟩
          · intro i hi
            have hne : i ≠ idx := fun e => hi (e ▸ List.mem_cons_self _ _)
            have hi2 : i ∉ rest := fun e => hi (List.mem_cons_of_mem _ e)
            rw [ih2 i hi2]
            simp only [Commit.setSignature, getElem?_setSlotSignature_ne _ _ _ _ hne]

/-- The abort of a pass over the slots from `s` on, with accepted keys: the
first slot from `s` on with no signer decides it. -/
theorem resignSlots_abort (cr : Crypto) (chainId : String) (pvs : List MockPV)
    (hacc : ∀ pv ∈ pvs, pv.accepted = true) :
    ∀ (m s : Nat) (c : Commit), s + m = c.Signatures.length →
      (resignSlots cr chainId pvs (List.range' s m) c).2 =
        (((c.Signatures.drop s).map (fun x => x.ValidatorAddress)).find?
          (fun a => !hasSigner cr pvs a)).map (fun a => signerNotFound (upperHex a)) := by
  intro m
  induction m with
  | zero =>
    intro s c h
    have : c.Signatures.drop s = [] := List.drop_eq_nil_of_le (by omega)
    simp [resignSlots, this]
  | succ m ih =>
    intro s c h
    have hs : s < c.Signatures.length := by omega
    have hdrop : c.Signatures.drop s = c.Signatures[s] :: c.Signatures.drop (s + 1) :=
      List.drop_eq_getElem_cons hs
    have hget : c.Signatures[s]? = some c.Signatures[s] := List.getElem?_eq_getElem hs
    simp only [List.range'_succ, resignSlots, Commit.GetVote, hget]
    rw [hdrop]
    simp only [List.map_cons, List.find?_cons,
      signWithFirstMatch_found cr chainId s _ pvs c hacc, Vote.ToProto]
    cases hsig : hasSigner cr pvs c.Signatures[s].ValidatorAddress with
    | false => simp
    | true =>
      simp only [if_true, Bool.not_true]
      rw [ih (s + 1)]
      · rw [signWithFirstMatch_eq cr chainId s _ pvs c hacc]
        split
        · rfl
        · simp only [Commit.setSignature, drop_setSlotSignature]
      · have := withoutSignatures_length (signWithFirstMatch_frame cr chainId s
          { MsgType := 2, Height := c.Height, Round := c.Round,
            BlockID := c.Signatures[s].BlockID c.BlockID,
            Timestamp := c.Signatures[s].Timestamp,
            ValidatorAddress := c.Signatures[s].ValidatorAddress,
            ValidatorIndex := s, Signature := c.Signatures[s].Signature } pvs c)
        omega

/-- The abort of the loop with accepted keys: the first slot with no signer
decides it. -/
theorem resign_abort (cr : Crypto) (chainId : String) (pvs : List MockPV) (c : Commit)
    (hacc : ∀ pv ∈ pvs, pv.accepted = true) :
    (resign cr chainId pvs c).2 =
      ((c.Signatures.map (fun x => x.ValidatorAddress)).find?
        (fun a => !hasSigner cr pvs a)).map (fun a => signerNotFound (upperHex a)) := by
  have := resignSlots_abort cr chainId pvs hacc c.Signatures.length 0 c (by omega)
  rw [List.drop_zero] at this
  rw [resign, List.range_eq_range']
  exact this

theorem hasSigner_perm (cr : Crypto) {pvs1 pvs2 : List MockPV} (h : pvs1.Perm pvs2)
    (a : Bytes) : hasSigner cr pvs1 a = hasSigner cr pvs2 a := by
  rw [Bool.eq_iff_iff]
  simp only [hasSigner, List.any_eq_true]
  constructor
  · rintro ⟨x, hx, hp⟩
    exact ⟨x, h.mem_iff.mp hx, hp⟩
  · rintro ⟨x, hx, hp⟩
    exact ⟨x, h.mem_iff.mpr hx, hp⟩

/-- A pass over the indices `l1 ++ l2` is the pass over `l1` and then, if that
one did not abort, the pass over `l2` from the commit it left. -/
theorem resignSlots_append (cr : Crypto) (chainId : String) (pvs : List MockPV)
    (l2 : List Nat) :
    ∀ (l1 : List Nat) (c : Commit),
      resignSlots cr chainId pvs (l1 ++ l2) c =
        if (resignSlots cr chainId pvs l1 c).2 = none then
          resignSlots cr chainId pvs l2 (resignSlots cr chainId pvs l1 c).1
        else resignSlots cr chainId pvs l1 c
  | [], c => by simp [resignSlots]
  | idx :: rest, c => by
    have ih := resignSlots_append cr chainId pvs l2 rest
    simp only [List.cons_append, resignSlots]
    split
    · simp
    · split
      · simp
      · simp
      · exact ih _

/-- The loop is its first `k` iterations and then, if they did not abort, the
remaining ones from the commit they left. -/
theorem resign_split (cr : Crypto) (chainId : String) (pvs : List MockPV) (c : Commit)
    (k : Nat) (hk : k ≤ c.Signatures.length) :
    resign cr chainId pvs c =
      if (resignSlots cr chainId pvs (List.range k) c).2 = none then
        resignSlots cr chainId pvs (List.range' k (c.Signatures.length - k))
          (resignSlots cr chainId pvs (List.range k) c).1
      else resignSlots cr chainId pvs (List.range k) c := by
  have hr : List.range c.Signatures.length =
      List.range k ++ List.range' k (c.Signatures.length - k) := by
    rw [List.range_eq_range', List.range_eq_range']
    have := List.range'_append_1 0 k (c.Signatures.length - k)
    rw [Nat.zero_add] at this
    rw [this]
    congr 1
    omega
  rw [resign, hr, resignSlots_append]
/-! ## Lemmas on the run of `main` -/

/-- The paths through `main`: every run is one of these. -/
theorem main_paths (w : World) :
    (∃ out, (out = .usage ∨ out = .invalidChainId ∨ (∃ err, out = .error err) ∨
        out = .pathNotExits w.stateDBPath) ∧ main w = ⟨[.print out], .returned⟩) ∨
    (∃ msg, main w = ⟨[], .panicked msg⟩) ∨
    (∃ err, main w = ⟨[.loadLatestVersion w.loadLatestVersion, .print (.error err)], .returned⟩) ∨
    (∃ st, w.loadState = .ok st ∧ st.ChainID = w.chainId ∧
      main w = ⟨eventsToState w st ++ [.print (.nothingToChange st.ChainID w.chainId)],
        .returned⟩) ∨
    (∃ st, w.loadState = .ok st ∧ st.ChainID ≠ w.chainId ∧
      main w = ⟨eventsToState w st ++ [.seenCommitLoaded st.LastBlockHeight none],
        .panicked nilDereference⟩) ∨
    (∃ pvs st c, readKeys (w.readFile w.keys) = .ok pvs ∧ w.loadState = .ok st ∧
      st.ChainID ≠ w.chainId ∧ w.loadSeenCommit st.LastBlockHeight = some c ∧
      ((∃ msg, (resign w.crypto w.chainId pvs c).2 = some msg ∧
          main w = ⟨eventsToResign w pvs st c, .panicked msg⟩) ∨
        (∃ err, (resign w.crypto w.chainId pvs c).2 = none ∧
          main w = ⟨eventsToResign w pvs st c ++
            [.saveSeenCommit st.LastBlockHeight (resign w.crypto w.chainId pvs c).1 (some err),
              .print (.error err)], .returned⟩) ∨
        (∃ err, (resign w.crypto w.chainId pvs c).2 = none ∧
          main w = ⟨eventsToResign w pvs st c ++
            [.saveSeenCommit st.LastBlockHeight (resign w.crypto w.chainId pvs c).1 none,
              .saveState (updatedState w st) (some err), .print (.error err)], .returned⟩) ∨
        ((resign w.crypto w.chainId pvs c).2 = none ∧
          main w = ⟨eventsToResign w pvs st c ++
            [.saveSeenCommit st.LastBlockHeight (resign w.crypto w.chainId pvs c).1 none,
              .saveState (updatedState w st) none,
              .print (.success st.ChainID w.chainId)], .returned⟩))) := by
  by_cases h1 : w.home = "" ∨ w.chainId = "" ∨ w.keys = ""
  · exact Or.inl ⟨.usage, by simp, by simp [main, h1]⟩
  by_cases h2 : IsValidChainID w.chainId = false
  · exact Or.inl ⟨.invalidChainId, by simp, by simp [main, h1, h2]⟩
  cases h3 : readKeys (w.readFile w.keys) with
  | failed err => exact Or.inl ⟨.error err, by simp, by simp [main, h1, h2, h3]⟩
  | panicked msg => exact Or.inr (Or.inl ⟨msg, by simp [main, h1, h2, h3]⟩)
  | ok pvs =>
  cases h4 : Exists (w.stat w.stateDBPath) with
  | none => exact Or.inr (Or.inl ⟨nilDereference, by simp [main, h1, h2, h3, h4]⟩)
  | some b =>
  cases b with
  | false => exact Or.inl ⟨.pathNotExits w.stateDBPath, by simp, by simp [main, h1, h2, h3, h4]⟩
  | true =>
  cases h5 : initAppDBs w.dbProvider with
  | some err => exact Or.inl ⟨.error err, by simp, by simp [main, h1, h2, h3, h4, h5]⟩
  | none =>
  cases h6 : initDBs w.dbProvider with
  | some err => exact Or.inr (Or.inr (Or.inl ⟨err, by simp [main, h1, h2, h3, h4, h5, h6]⟩))
  | none =>
  cases h7 : w.loadState with
  | error err =>
    exact Or.inr (Or.inr (Or.inl ⟨err, by simp [main, h1, h2, h3, h4, h5, h6, h7]⟩))
  | ok st =>
  by_cases h8 : st.ChainID = w.chainId
  · exact Or.inr (Or.inr (Or.inr (Or.inl ⟨st, rfl, h8, by
      simp [main, h1, h2, h3, h4, h5, h6, h7, h8, eventsToState]⟩)))
  cases h9 : w.loadSeenCommit st.LastBlockHeight with
  | none =>
    exact Or.inr (Or.inr (Or.inr (Or.inr (Or.inl ⟨st, rfl, h8, by
      simp [main, h1, h2, h3, h4, h5, h6, h7, h8, h9, eventsToState]⟩))))
  | some c =>
  refine Or.inr (Or.inr (Or.inr (Or.inr (Or.inr ⟨pvs, st, c, rfl, rfl, h8, h9, ?_⟩))))
  cases h10 : (resign w.crypto w.chainId pvs c).2 with
  | some msg =>
    exact Or.inl ⟨msg, rfl, by
      simp [main, h1, h2, h3, h4, h5, h6, h7, h8, h9, h10, eventsToState, eventsToResign]⟩
  | none =>
  cases h11 : w.saveSeenCommit st.LastBlockHeight (resign w.crypto w.chainId pvs c).1 with
  | some err =>
    exact Or.inr (Or.inl ⟨err, rfl, by
      simp [main, h1, h2, h3, h4, h5, h6, h7, h8, h9, h10, h11, eventsToState, eventsToResign]⟩)
  | none =>
  cases h12 : w.saveState (updatedState w st) with
  | some err =>
    refine Or.inr (Or.inr (Or.inl ⟨err, rfl, ?_⟩))
    simp only [updatedState] at h12
    simp [main, h1, h2, h3, h4, h5, h6, h7, h8, h9, h10, h11, h12, eventsToState,
      eventsToResign, updatedState]
  | none =>
    refine Or.inr (Or.inr (Or.inr ⟨rfl, ?_⟩))
    simp only [updatedState] at h12
    simp [main, h1, h2, h3, h4, h5, h6, h7, h8, h9, h10, h11, h12, eventsToState,
      eventsToResign, updatedState]
theorem hasSigner_eq_false_iff (cr : Crypto) (pvs : List MockPV) (a : Bytes) :
    hasSigner cr pvs a = false ↔ ∀ pv ∈ pvs, MockPV.address cr pv ≠ .ok a := by
  simp [hasSigner]

/-- A loop that completes found a signer for every slot. -/
theorem resign_completed_all_matched (cr : Crypto) (chainId : String) (pvs : List MockPV)
    (c : Commit) (h : (resign cr chainId pvs c).2 = none) :
    ∀ slot ∈ c.Signatures, ∃ pv ∈ pvs, MockPV.address cr pv = .ok slot.ValidatorAddress := by
  intro slot hslot
  obtain ⟨i, hi, hget⟩ := List.getElem_of_mem hslot
  have hres : resignSlots cr chainId pvs (List.range c.Signatures.length) c =
      ((resign cr chainId pvs c).1, none) := by
    rw [← h]
    rfl
  obtain ⟨hall, -⟩ := resignSlots_completed cr chainId pvs _ c _ (List.nodup_range _) hres
  obtain ⟨vote, pv, slot1, hv, hpv, haddr, -, -, -⟩ := hall i (List.mem_range.mpr hi)
  have hva := getVote_validatorAddress hv
  rw [List.getElem?_eq_getElem hi, hget] at hva
  simp only [Option.map_some', Option.some.injEq] at hva
  exact ⟨pv, hpv, by rw [hva]; exact haddr⟩

/-- A loop over a commit that has a slot without signer aborts. -/
theorem resign_aborts_of_unmatched (cr : Crypto) (chainId : String) (pvs : List MockPV)
    (c : Commit)
    (hmiss : ∃ slot ∈ c.Signatures, ∀ pv ∈ pvs, MockPV.address cr pv ≠ .ok slot.ValidatorAddress) :
    ∃ msg, (resign cr chainId pvs c).2 = some msg := by
  cases h : (resign cr chainId pvs c).2 with
  | some msg => exact ⟨msg, rfl⟩
  | none =>
    obtain ⟨slot, hslot, hno⟩ := hmiss
    obtain ⟨pv, hpv, haddr⟩ := resign_completed_all_matched cr chainId pvs c h slot hslot
    exact absurd haddr (hno pv hpv)

/-- With accepted keys, the message of an abort names a slot without signer. -/
theorem resign_abort_message (cr : Crypto) (chainId : String) (pvs : List MockPV)
    (c : Commit) (msg : String) (hacc : ∀ pv ∈ pvs, pv.accepted = true)
    (h : (resign cr chainId pvs c).2 = some msg) :
    ∃ slot ∈ c.Signatures, (∀ pv ∈ pvs, MockPV.address cr pv ≠ .ok slot.ValidatorAddress) ∧
      msg = signerNotFound (upperHex slot.ValidatorAddress) := by
  rw [resign_abort cr chainId pvs c hacc] at h
  cases hf : (c.Signatures.map (fun x => x.ValidatorAddress)).find?
      (fun a => !hasSigner cr pvs a) with
  | none => rw [hf] at h; simp at h
  | some a =>
    rw [hf] at h
    have hmem := List.mem_of_find?_eq_some hf
    have hp := List.find?_some hf
    obtain ⟨slot, hslot, rfl⟩ := List.mem_map.mp hmem
    refine ⟨slot, hslot, (hasSigner_eq_false_iff _ _ _).mp (by simpa using hp), ?_⟩
    simpa using h.symm

/-- With accepted keys that differ whenever their addresses differ, the inner
loop does the same on two lists with the same members. -/
theorem signWithFirstMatch_perm (cr : Crypto) (chainId : String) (idx : Nat) (v : ProtoVote)
    {pvs1 pvs2 : List MockPV} (hperm : pvs1.Perm pvs2)
    (hacc : ∀ pv ∈ pvs1, pv.accepted = true)
    (hinj : ∀ p ∈ pvs1, ∀ q ∈ pvs1, MockPV.address cr p = MockPV.address cr q → p = q)
    (c : Commit) :
    signWithFirstMatch cr chainId idx v pvs1 c = signWithFirstMatch cr chainId idx v pvs2 c := by
  have hacc2 : ∀ pv ∈ pvs2, pv.accepted = true := fun pv hpv => hacc pv (hperm.mem_iff.mpr hpv)
  rw [signWithFirstMatch_eq cr chainId idx v pvs1 c hacc,
    signWithFirstMatch_eq cr chainId idx v pvs2 c hacc2]
  cases h1 : pvs1.find? (fun pv => decide (pv.addressOf cr = v.ValidatorAddress)) with
  | none =>
    cases h2 : pvs2.find? (fun pv => decide (pv.addressOf cr = v.ValidatorAddress)) with
    | none => rfl
    | some q =>
      have hq := List.find?_some h2
      have hqm := hperm.mem_iff.mpr (List.mem_of_find?_eq_some h2)
      have := List.find?_eq_none.mp h1 q hqm
      exact absurd hq this
  | some p =>
    have hp := List.find?_some h1
    have hpm := List.mem_of_find?_eq_some h1
    cases h2 : pvs2.find? (fun pv => decide (pv.addressOf cr = v.ValidatorAddress)) with
    | none =>
      have := List.find?_eq_none.mp h2 p (hperm.mem_iff.mp hpm)
      exact absurd hp this
    | some q =>
      have hq := List.find?_some h2
      have hqm := hperm.mem_iff.mpr (List.mem_of_find?_eq_some h2)
      have hpq : p = q := by
        apply hinj p hpm q hqm
        have e1 : p.addressOf cr = v.ValidatorAddress := by simpa using hp
        have e2 : q.addressOf cr = v.ValidatorAddress := by simpa using hq
        rw [address_of_accepted cr p (hacc p hpm), address_of_accepted cr q (hacc q hqm),
          e1, e2]
      subst hpq
      rfl

theorem resignSlots_perm (cr : Crypto) (chainId : String)
    {pvs1 pvs2 : List MockPV} (hperm : pvs1.Perm pvs2)
    (hacc : ∀ pv ∈ pvs1, pv.accepted = true)
    (hinj : ∀ p ∈ pvs1, ∀ q ∈ pvs1, MockPV.address cr p = MockPV.address cr q → p = q)
    (idxs : List Nat) :
    ∀ c : Commit, resignSlots cr chainId pvs1 idxs c = resignSlots cr chainId pvs2 idxs c := by
  induction idxs with
  | nil => intro c; rfl
  | cons idx rest ih =>
    intro c
    simp only [resignSlots]
    split
    · rfl
    · rw [signWithFirstMatch_perm cr chainId idx _ hperm hacc hinj c]
      split
      · rfl
      · rfl
      · exact ih _

/-- A key shorter than 32 bytes at the head of the list ends the loop at the
first slot, whatever the hash and the signature functions are. -/
theorem resign_short_key_first (cr : Crypto) (chainId : String) (pv : MockPV)
    (pvs : List MockPV) (c : Commit) (hshort : pv.PrivKey.length < 32)
    (hslots : c.Signatures ≠ []) :
    resign cr chainId (pv :: pvs) c = (c, some sliceBoundsOutOfRange) := by
  cases hsig : c.Signatures with
  | nil => exact absurd hsig hslots
  | cons s0 ss =>
    simp [resign, hsig, List.range_succ_eq_map, resignSlots, Commit.GetVote,
      signWithFirstMatch, MockPV.address, PrivKey.PubKey, hshort]

/-- An inner loop that ends before its list runs out does not see what is
appended to the list. -/
theorem signWithFirstMatch_append (cr : Crypto) (chainId : String) (idx : Nat) (v : ProtoVote)
    (extra : List MockPV) (c : Commit) :
    ∀ pvs : List MockPV, (signWithFirstMatch cr chainId idx v pvs c).2 ≠ .notFound →
      signWithFirstMatch cr chainId idx v (pvs ++ extra) c =
        signWithFirstMatch cr chainId idx v pvs c
  | [], h => by simp [signWithFirstMatch] at h
  | pv :: pvs, h => by
    have ih := signWithFirstMatch_append cr chainId idx v extra c pvs
    cases ha : MockPV.address cr pv with
    | panicked msg => simp [signWithFirstMatch, ha]
    | ok address =>
      by_cases heq : address = v.ValidatorAddress
      · simp [signWithFirstMatch, ha, heq]
      · simp only [signWithFirstMatch, ha, heq, if_false] at h
        simp only [List.cons_append, signWithFirstMatch, ha, heq, if_false]
        exact ih h

/-- A loop that completes does not see what is appended to the identity
list. -/
theorem resignSlots_append_keys (cr : Crypto) (chainId : String) (pvs extra : List MockPV)
    (idxs : List Nat) :
    ∀ c : Commit, (resignSlots cr chainId pvs idxs c).2 = none →
      resignSlots cr chainId (pvs ++ extra) idxs c = resignSlots cr chainId pvs idxs c := by
  induction idxs with
  | nil => intro c _; rfl
  | cons idx rest ih =>
    intro c h
    cases hvote : c.GetVote idx with
    | none => simp [resignSlots, hvote]
    | some vote =>
      cases hres : signWithFirstMatch cr chainId idx vote.ToProto pvs c with
      | mk c2 flag =>
        cases flag with
        | panicked msg => simp [resignSlots, hvote, hres] at h
        | notFound => simp [resignSlots, hvote, hres] at h
        | found =>
          have happ := signWithFirstMatch_append cr chainId idx vote.ToProto extra c pvs
            (by rw [hres]; simp)
          simp only [resignSlots, hvote, hres] at h
          simp only [resignSlots, hvote, happ, hres]
          exact ih c2 h

/-- The order of the identities decides between abort and completion,
whatever the hash and the signature functions are: when the loop completes
with the list `pvs` on a commit that has a slot, it completes with a key
shorter than 32 bytes added at the end and aborts with that key added at the
head. -/
theorem resign_order_short_key (cr : Crypto) (chainId : String) (short : MockPV)
    (pvs : List MockPV) (c : Commit) (hshort : short.PrivKey.length < 32)
    (hslots : c.Signatures ≠ []) (hdone : (resign cr chainId pvs c).2 = none) :
    List.Perm (short :: pvs) (pvs ++ [short]) ∧
    resign cr chainId (short :: pvs) c = (c, some sliceBoundsOutOfRange) ∧
    (resign cr chainId (pvs ++ [short]) c).2 = none := by
  refine ⟨@List.perm_append_comm _ [short] pvs,
    resign_short_key_first cr chainId short pvs c hshort hslots, ?_⟩
  have := resignSlots_append_keys cr chainId pvs [short] _ c hdone
  rw [resign, this]
  exact hdone
/-! ## Lemmas on base64 and on the key file -/

set_option maxRecDepth 100000 in
theorem decodeMap_encodeChar : ∀ n, n < 64 → decodeMap (encodeChar n) = some n := by
  decide

set_option maxRecDepth 100000 in
theorem encodeChar_plain : ∀ n, n < 64 →
    encodeChar n ≠ padChar ∧ isSpace (encodeChar n) = false ∧
      encodeChar n ≠ '\r' ∧ encodeChar n ≠ '\n' := by
  decide

theorem padChar_plain :
    isSpace padChar = false ∧ padChar ≠ '\r' ∧ padChar ≠ '\n' := by
  decide

/-- Decoding the quanta of an encoded byte string gives the bytes back. -/
theorem decodeQuanta_encode : ∀ bs : Bytes, (∀ b ∈ bs, b < 256) →
    decodeQuanta (EncodeToString bs) = some bs
  | [], _ => rfl
  | [a], h => by
    have ha : a < 256 := h a (by simp)
    have h0 := decodeMap_encodeChar (a / 4) (by omega)
    have h1 := decodeMap_encodeChar (a % 4 * 16) (by omega)
    simp only [EncodeToString, decodeQuanta, h0, h1, if_true, and_self]
    have : a / 4 * 4 + a % 4 * 16 / 16 = a := by omega
    rw [this]
  | [a, b], h => by
    have ha : a < 256 := h a (by simp)
    have hb : b < 256 := h b (by simp)
    have h0 := decodeMap_encodeChar (a / 4) (by omega)
    have h1 := decodeMap_encodeChar (a % 4 * 16 + b / 16) (by omega)
    have h2 := decodeMap_encodeChar (b % 16 * 4) (by omega)
    have n2 := (encodeChar_plain (b % 16 * 4) (by omega)).1
    simp only [EncodeToString, decodeQuanta, h0, h1, h2, n2, if_true, if_false]
    have e1 : a / 4 * 4 + (a % 4 * 16 + b / 16) / 16 = a := by omega
    have e2 : (a % 4 * 16 + b / 16) % 16 * 16 + b % 16 * 4 / 4 = b := by omega
    rw [e1, e2]
  | a :: b :: c :: rest, h => by
    have ha : a < 256 := h a (by simp)
    have hb : b < 256 := h b (by simp)
    have hc : c < 256 := h c (by simp)
    have ih := decodeQuanta_encode rest (fun x hx => h x (by simp [hx]))
    have h0 := decodeMap_encodeChar (a / 4) (by omega)
    have h1 := decodeMap_encodeChar (a % 4 * 16 + b / 16) (by omega)
    have h2 := decodeMap_encodeChar (b % 16 * 4 + c / 64) (by omega)
    have h3 := decodeMap_encodeChar (c % 64) (by omega)
    have n2 := (encodeChar_plain (b % 16 * 4 + c / 64) (by omega)).1
    have n3 := (encodeChar_plain (c % 64) (by omega)).1
    simp only [EncodeToString, decodeQuanta, h0, h1, h2, h3, n2, n3, if_false, ih]
    have e1 : a / 4 * 4 + (a % 4 * 16 + b / 16) / 16 = a := by omega
    have e2 : (a % 4 * 16 + b / 16) % 16 * 16 + (b % 16 * 4 + c / 64) / 4 = b := by omega
    have e3 : (b % 16 * 4 + c / 64) % 4 * 64 + c % 64 = c := by omega
    rw [e1, e2, e3]

/-- The runes of an encoded byte string are neither white space nor line
breaks. -/
theorem encode_plain : ∀ bs : Bytes, (∀ b ∈ bs, b < 256) →
    ∀ x ∈ EncodeToString bs, isSpace x = false ∧ x ≠ '\r' ∧ x ≠ '\n'
  | [], _ => by intro x hx; simp [EncodeToString] at hx
  | [a], h => by
    have ha : a < 256 := h a (by simp)
    have p0 := (encodeChar_plain (a / 4) (by omega)).2
    have p1 := (encodeChar_plain (a % 4 * 16) (by omega)).2
    intro x hx
    simp only [EncodeToString, List.mem_cons, List.mem_singleton, List.not_mem_nil,
      or_false] at hx
    rcases hx with rfl | rfl | rfl | rfl
    · exact p0
    · exact p1
    · exact padChar_plain
    · exact padChar_plain
  | [a, b], h => by
    have ha : a < 256 := h a (by simp)
    have hb : b < 256 := h b (by simp)
    have p0 := (encodeChar_plain (a / 4) (by omega)).2
    have p1 := (encodeChar_plain (a % 4 * 16 + b / 16) (by omega)).2
    have p2 := (encodeChar_plain (b % 16 * 4) (by omega)).2
    intro x hx
    simp only [EncodeToString, List.mem_cons, List.mem_singleton, List.not_mem_nil,
      or_false] at hx
    rcases hx with rfl | rfl | rfl | rfl
    · exact p0
    · exact p1
    · exact p2
    · exact padChar_plain
  | a :: b :: c :: rest, h => by
    have ha : a < 256 := h a (by simp)
    have hb : b < 256 := h b (by simp)
    have hc : c < 256 := h c (by simp)
    have ih := encode_plain rest (fun x hx => h x (by simp [hx]))
    have p0 := (encodeChar_plain (a / 4) (by omega)).2
    have p1 := (encodeChar_plain (a % 4 * 16 + b / 16) (by omega)).2
    have p2 := (encodeChar_plain (b % 16 * 4 + c / 64) (by omega)).2
    have p3 := (encodeChar_plain (c % 64) (by omega)).2
    intro x hx
    simp only [EncodeToString, List.mem_cons] at hx
    rcases hx with rfl | rfl | rfl | rfl | hx
    · exact p0
    · exact p1
    · exact p2
    · exact p3
    · exact ih x hx

theorem encode_ne_nil : ∀ bs : Bytes, bs ≠ [] → EncodeToString bs ≠ []
  | [], h => absurd rfl h
  | [_], _ => by simp [EncodeToString]
  | [_, _], _ => by simp [EncodeToString]
  | _ :: _ :: _ :: _, _ => by simp [EncodeToString]

theorem decodeString_encode (bs : Bytes) (h : ∀ b ∈ bs, b < 256) :
    DecodeString (EncodeToString bs) = some bs := by
  have hfilter : (EncodeToString bs).filter (fun c => !(c == '\r' || c == '\n')) =
      EncodeToString bs := by
    apply List.filter_eq_self.mpr
    intro x hx
    obtain ⟨-, h1, h2⟩ := encode_plain bs h x hx
    simp [h1, h2]
  rw [DecodeString, hfilter]
  exact decodeQuanta_encode bs h

theorem dropWhile_eq_self_of_head {p : Char → Bool} :
    ∀ l : List Char, (∀ x ∈ l, p x = false) → l.dropWhile p = l
  | [], _ => rfl
  | c :: cs, h => by
    have hc := h c (List.mem_cons_self _ _)
    simp [List.dropWhile, hc]

theorem dropWhile_eq_nil_of_all {p : Char → Bool} :
    ∀ l : List Char, (∀ x ∈ l, p x = true) → l.dropWhile p = []
  | [], _ => rfl
  | c :: cs, h => by
    have hc := h c (List.mem_cons_self _ _)
    simp only [List.dropWhile, hc]
    exact dropWhile_eq_nil_of_all cs (fun x hx => h x (List.mem_cons_of_mem _ hx))

theorem trimSpace_of_plain (l : List Char) (h : ∀ x ∈ l, isSpace x = false) :
    TrimSpace l = l := by
  unfold TrimSpace
  rw [dropWhile_eq_self_of_head l h,
    dropWhile_eq_self_of_head l.reverse (fun x hx => h x (List.mem_reverse.mp hx))]
  exact List.reverse_reverse l

theorem trimSpace_of_space (l : List Char) (h : ∀ x ∈ l, isSpace x = true) :
    TrimSpace l = [] := by
  unfold TrimSpace
  rw [dropWhile_eq_nil_of_all l h]
  rfl

theorem split_ne_nil (sep : Char) : ∀ l : List Char, Split sep l ≠ []
  | [] => by simp [Split]
  | c :: cs => by
    by_cases h : c = sep
    · simp [Split, h]
    · simp only [Split, h, if_false]
      split <;> simp

/-- Splitting at a separator between two texts splits each of them. -/
theorem split_append_sep (sep : Char) (b : List Char) :
    ∀ a : List Char, Split sep (a ++ sep :: b) = Split sep a ++ Split sep b
  | [] => by simp [Split]
  | c :: cs => by
    have ih := split_append_sep sep b cs
    by_cases h : c = sep
    · simp [Split, h, ih]
    · have e : (c :: cs) ++ sep :: b = c :: (cs ++ sep :: b) := rfl
      rw [e]
      simp only [Split, h, if_false]
      rw [ih]
      cases hs : Split sep cs with
      | nil => exact absurd hs (split_ne_nil sep cs)
      | cons l ls => rfl

theorem split_of_no_sep (sep : Char) : ∀ l : List Char, sep ∉ l → Split sep l = [l]
  | [], _ => rfl
  | c :: cs, h => by
    have hc : c ≠ sep := fun e => h (by simp [e])
    have ih := split_of_no_sep sep cs (fun e => h (List.mem_cons_of_mem _ e))
    simp [Split, hc, ih]

theorem mem_of_mem_split (sep : Char) :
    ∀ (l piece : List Char), piece ∈ Split sep l → ∀ x ∈ piece, x ∈ l
  | [], piece, hp, x, hx => by
    simp [Split] at hp
    subst hp
    exact absurd hx (List.not_mem_nil x)
  | c :: cs, piece, hp, x, hx => by
    have ih := mem_of_mem_split sep cs
    by_cases h : c = sep
    · simp only [Split, h, if_true, List.mem_cons] at hp
      rcases hp with rfl | hp
      · exact absurd hx (List.not_mem_nil x)
      · exact List.mem_cons_of_mem _ (ih piece hp x hx)
    · simp only [Split, h, if_false] at hp
      cases hs : Split sep cs with
      | nil => exact absurd hs (split_ne_nil sep cs)
      | cons l ls =>
        rw [hs] at hp ih
        simp only [List.mem_cons] at hp
        rcases hp with rfl | hp
        · rcases List.mem_cons.mp hx with rfl | hx
          · exact List.mem_cons_self _ _
          · exact List.mem_cons_of_mem _ (ih l (List.mem_cons_self _ _) x hx)
        · exact List.mem_cons_of_mem _ (ih piece (List.mem_cons_of_mem _ hp) x hx)

/-- The loop of `readKeys` over two runs of lines is the loop over the first
followed by the loop over the second. -/
theorem readKeysLines_append (ys : List (List Char)) :
    ∀ (xs : List (List Char)) (pvs : List MockPV),
      readKeysLines (xs ++ ys) pvs =
        match readKeysLines xs pvs with
        | .ok pvs1 => readKeysLines ys pvs1
        | .failed err => .failed err
        | .panicked msg => .panicked msg
  | [], pvs => rfl
  | x :: xs, pvs => by
    have ih := readKeysLines_append ys xs
    simp only [List.cons_append, readKeysLines]
    split
    · exact ih pvs
    · split
      · rfl
      · exact ih _

theorem readKeysLines_blank :
    ∀ (xs : List (List Char)) (pvs : List MockPV),
      (∀ l ∈ xs, ∀ x ∈ l, isSpace x = true) → readKeysLines xs pvs = .ok pvs
  | [], _, _ => rfl
  | x :: xs, pvs, h => by
    have hx := trimSpace_of_space x (h x (List.mem_cons_self _ _))
    simp only [readKeysLines, hx, if_true]
    exact readKeysLines_blank xs pvs (fun l hl => h l (List.mem_cons_of_mem _ hl))

theorem readKeysLines_key (k : Bytes) (hk : ∀ b ∈ k, b < 256) (hne : k ≠ [])
    (pvs : List MockPV) :
    readKeysLines [EncodeToString k] pvs = .ok (pvs ++ [⟨k⟩]) := by
  have ht := trimSpace_of_plain (EncodeToString k) (fun x hx => (encode_plain k hk x hx).1)
  simp only [readKeysLines, ht, encode_ne_nil k hne, if_false, NewMockPVFromBase64,
    decodeString_encode k hk]

/-- The loop of `readKeys` over the lines of one line of a key file. -/
theorem readKeysLines_fileLine (l : FileLine) (hwf : l.WellFormed)
    (hne : ∀ k, l = .key k → k ≠ []) (pvs : List MockPV) :
    readKeysLines (Split '\n' l.text) pvs = .ok (pvs ++ (fileKeys [l]).map MockPV.mk) := by
  cases l with
  | key k =>
    have hk : ∀ b ∈ k, b < 256 := hwf
    have hnl : '\n' ∉ EncodeToString k := fun hm => (encode_plain k hk _ hm).2.2 rfl
    simp only [FileLine.text, split_of_no_sep _ _ hnl, fileKeys, List.map_cons, List.map_nil]
    exact readKeysLines_key k hk (hne k rfl) pvs
  | blank w =>
    have hw : ∀ c ∈ w, isSpace c = true := hwf
    simp only [FileLine.text, fileKeys, List.map_nil, List.append_nil]
    apply readKeysLines_blank
    intro piece hp x hx
    exact hw x (mem_of_mem_split '\n' w piece hp x hx)

theorem fileKeys_cons (l : FileLine) (ls : List FileLine) :
    fileKeys (l :: ls) = fileKeys [l] ++ fileKeys ls := by
  cases l <;> simp [fileKeys]

/-- The loop of `readKeys` over the lines of a key file. -/
theorem readKeysLines_fileText :
    ∀ (ls : List FileLine) (pvs : List MockPV),
      (∀ l ∈ ls, l.WellFormed) → (∀ k, FileLine.key k ∈ ls → k ≠ []) →
      readKeysLines (Split '\n' (joinLines (ls.map FileLine.text))) pvs =
        .ok (pvs ++ (fileKeys ls).map MockPV.mk)
  | [], pvs, _, _ => by
    simp [joinLines, Split, readKeysLines, TrimSpace, fileKeys]
  | [l], pvs, hwf, hne => by
    simp only [List.map_cons, List.map_nil, joinLines]
    exact readKeysLines_fileLine l (hwf l (by simp)) (fun k hk => hne k (by simp [hk])) pvs
  | l :: l2 :: ls, pvs, hwf, hne => by
    have ih := readKeysLines_fileText (l2 :: ls) (pvs ++ (fileKeys [l]).map MockPV.mk)
      (fun x hx => hwf x (List.mem_cons_of_mem _ hx))
      (fun k hk => hne k (List.mem_cons_of_mem _ hk))
    have h1 := readKeysLines_fileLine l (hwf l (by simp)) (fun k hk => hne k (by simp [hk])) pvs
    simp only [List.map_cons, joinLines, split_append_sep, readKeysLines_append, h1]
    simp only [List.map_cons] at ih
    rw [ih, fileKeys_cons l (l2 :: ls)]
    simp
/-! ## The re-signing loop: what it signs, what it leaves alone -/

/-- C2: when the re-signing loop of `main` runs to completion, the commit has
as many slots as before and every slot `i` carries the signature that an
identity of the list whose derived address is the validator address of slot `i`
makes over the sign-bytes, under the new chain id, of the vote reconstructed
from slot `i` of the commit as it was loaded; no slot is left out, and none
keeps the signature it had. -/
theorem resign_signs_every_slot (cr : Crypto) (chainId : String) (pvs : List MockPV)
    (c c1 : Commit) (h : resign cr chainId pvs c = (c1, none)) :
    c1.Signatures.length = c.Signatures.length ∧
    ∀ i, i < c.Signatures.length →
      ∃ slot slot1 vote pv,
        c.Signatures[i]? = some slot ∧ c1.Signatures[i]? = some slot1 ∧
        c.GetVote i = some vote ∧ pv ∈ pvs ∧
        MockPV.address cr pv = .ok slot.ValidatorAddress ∧
        PrivKey.Sign cr pv.PrivKey (cr.voteSignBytes chainId vote.ToProto) =
          .ok slot1.Signature ∧
        slot1.Signature =
          cr.ed25519Sign pv.PrivKey (cr.voteSignBytes chainId vote.ToProto) := by
  have hframe := resignSlots_frame cr chainId pvs (List.range c.Signatures.length) c
  have h1 : resignSlots cr chainId pvs (List.range c.Signatures.length) c = (c1, none) := h
  rw [h1] at hframe
  refine ⟨withoutSignatures_length hframe, ?_⟩
  intro i hi
  obtain ⟨hall, -⟩ := resignSlots_completed cr chainId pvs _ c c1 (List.nodup_range _) h1
  obtain ⟨vote, pv, slot1, hv, hpv, hadr, hlen, hs1, hsig⟩ := hall i (List.mem_range.mpr hi)
  have haddr := getVote_validatorAddress hv
  have hget : c.Signatures[i]? = some c.Signatures[i] := List.getElem?_eq_getElem hi
  rw [hget] at haddr
  simp only [Option.map_some', Option.some.injEq] at haddr
  refine ⟨c.Signatures[i], slot1, vote, pv, hget, hs1, hv, hpv, ?_, ?_, hsig⟩
  · rw [haddr]
    exact hadr
  · rw [privKey_sign_eq, if_pos hlen, hsig]

set_option maxRecDepth 100000 in
/-- C2, at the sample commit: the loop completes with two identities and both
slots carry the new signatures. -/
theorem resign_signs_every_slot_witness :
    resign demoCrypto "abc_1-2" [⟨demoKey1⟩, ⟨demoKey3⟩] demoCommit =
        ((resign demoCrypto "abc_1-2" [⟨demoKey1⟩, ⟨demoKey3⟩] demoCommit).1, none) ∧
    ((resign demoCrypto "abc_1-2" [⟨demoKey1⟩, ⟨demoKey3⟩] demoCommit).1.Signatures.length =
        demoCommit.Signatures.length ∧
      ∀ i, i < demoCommit.Signatures.length →
        ∃ slot slot1 vote pv,
          demoCommit.Signatures[i]? = some slot ∧
          (resign demoCrypto "abc_1-2" [⟨demoKey1⟩, ⟨demoKey3⟩] demoCommit).1.Signatures[i]? =
            some slot1 ∧
          demoCommit.GetVote i = some vote ∧ pv ∈ [(⟨demoKey1⟩ : MockPV), ⟨demoKey3⟩] ∧
          MockPV.address demoCrypto pv = .ok slot.ValidatorAddress ∧
          PrivKey.Sign demoCrypto pv.PrivKey
              (demoCrypto.voteSignBytes "abc_1-2" vote.ToProto) = .ok slot1.Signature ∧
          slot1.Signature =
            demoCrypto.ed25519Sign pv.PrivKey
              (demoCrypto.voteSignBytes "abc_1-2" vote.ToProto)) :=
  ⟨by decide,
    resign_signs_every_slot demoCrypto "abc_1-2" [⟨demoKey1⟩, ⟨demoKey3⟩] demoCommit _
      (by decide)⟩

/-- C3: the re-signing loop of `main` changes nothing but signature bytes.
After any pass over slot indices, after the first `k` iterations of the loop
for every `k` (the loop being those iterations followed by the rest), after
the whole loop, completed or aborted, and after any run of the inner loop,
the commit with its signature bytes blanked is the one that was loaded: same
height, round and block id, the same number of slots in the same order, and
in each slot the same flag, validator address and timestamp. -/
theorem resign_frame (cr : Crypto) (chainId : String) (pvs : List MockPV) (c : Commit) :
    (∀ idxs : List Nat,
      (resignSlots cr chainId pvs idxs c).1.withoutSignatures = c.withoutSignatures) ∧
    (∀ k : Nat, k ≤ c.Signatures.length →
      (resign cr chainId pvs c =
        if (resignSlots cr chainId pvs (List.range k) c).2 = none then
          resignSlots cr chainId pvs (List.range' k (c.Signatures.length - k))
            (resignSlots cr chainId pvs (List.range k) c).1
        else resignSlots cr chainId pvs (List.range k) c) ∧
      (resignSlots cr chainId pvs (List.range k) c).1.withoutSignatures =
        c.withoutSignatures) ∧
    (∀ (idx : Nat) (v : ProtoVote) (some_pvs : List MockPV),
      (signWithFirstMatch cr chainId idx v some_pvs c).1.withoutSignatures =
        c.withoutSignatures) ∧
    (resign cr chainId pvs c).1.withoutSignatures = c.withoutSignatures ∧
    (resign cr chainId pvs c).1.Height = c.Height ∧
    (resign cr chainId pvs c).1.Round = c.Round ∧
    (resign cr chainId pvs c).1.BlockID = c.BlockID ∧
    (resign cr chainId pvs c).1.Signatures.length = c.Signatures.length ∧
    (resign cr chainId pvs c).1.Signatures.map (fun s => s.ValidatorAddress) =
      c.Signatures.map (fun s => s.ValidatorAddress) ∧
    (resign cr chainId pvs c).1.Signatures.map (fun s => s.BlockIDFlag) =
      c.Signatures.map (fun s => s.BlockIDFlag) ∧
    (resign cr chainId pvs c).1.Signatures.map (fun s => s.Timestamp) =
      c.Signatures.map (fun s => s.Timestamp) := by
  have hf : (resign cr chainId pvs c).1.withoutSignatures = c.withoutSignatures :=
    resignSlots_frame cr chainId pvs _ c
  have hsig : (resign cr chainId pvs c).1.Signatures.map CommitSig.withoutSignature =
      c.Signatures.map CommitSig.withoutSignature := by
    have := congrArg (fun x => x.Signatures) hf
    simpa [Commit.withoutSignatures] using this
  refine ⟨fun idxs => resignSlots_frame cr chainId pvs idxs c,
    fun k hk => ⟨resign_split cr chainId pvs c k hk, resignSlots_frame cr chainId pvs _ c⟩,
    fun idx v some_pvs => signWithFirstMatch_frame cr chainId idx v some_pvs c,
    hf, ?_, ?_, ?_, withoutSignatures_length hf, ?_, ?_, ?_⟩
  · exact congrArg (fun x => x.Height) hf
  · exact congrArg (fun x => x.Round) hf
  · exact congrArg (fun x => x.BlockID) hf
  · have := congrArg (List.map (fun s : CommitSig => s.ValidatorAddress)) hsig
    simpa [List.map_map, Function.comp_def, CommitSig.withoutSignature] using this
  · have := congrArg (List.map (fun s : CommitSig => s.BlockIDFlag)) hsig
    simpa [List.map_map, Function.comp_def, CommitSig.withoutSignature] using this
  · have := congrArg (List.map (fun s : CommitSig => s.Timestamp)) hsig
    simpa [List.map_map, Function.comp_def, CommitSig.withoutSignature] using this

/-! ## Order of the identities -/

set_option maxRecDepth 100000 in
/-- C9, as stated, fails, in two ways. First, `readKeys` loads any byte
string as a key, and the library refuses a key shorter than 32 bytes when the
loop derives its address: with `demoShortKey` first the loop aborts at slot 0
on the sample commit, with `demoShortKey` last it completes, the two lists
being permutations of each other. Second, `demoKey1` and `demoKey2` are
accepted keys with the same derived address and different signatures: with
the two in one order or the other the loop completes and slot 0 receives
different signature bytes. -/
theorem resign_order_matters :
    (List.Perm [(⟨demoShortKey⟩ : MockPV), ⟨demoKey1⟩, ⟨demoKey3⟩]
        [⟨demoKey1⟩, ⟨demoKey3⟩, ⟨demoShortKey⟩] ∧
      resign demoCrypto "abc_1-2" [⟨demoShortKey⟩, ⟨demoKey1⟩, ⟨demoKey3⟩] demoCommit =
        (demoCommit, some sliceBoundsOutOfRange) ∧
      (resign demoCrypto "abc_1-2" [⟨demoKey1⟩, ⟨demoKey3⟩, ⟨demoShortKey⟩] demoCommit).2 =
        none) ∧
    (List.Perm [(⟨demoKey1⟩ : MockPV), ⟨demoKey2⟩, ⟨demoKey3⟩]
        [⟨demoKey2⟩, ⟨demoKey1⟩, ⟨demoKey3⟩] ∧
      (∀ pv ∈ [(⟨demoKey1⟩ : MockPV), ⟨demoKey2⟩, ⟨demoKey3⟩], pv.accepted = true) ∧
      (resign demoCrypto "abc_1-2" [⟨demoKey1⟩, ⟨demoKey2⟩, ⟨demoKey3⟩] demoCommit).2 = none ∧
      (resign demoCrypto "abc_1-2" [⟨demoKey2⟩, ⟨demoKey1⟩, ⟨demoKey3⟩] demoCommit).2 = none ∧
      (resign demoCrypto "abc_1-2" [⟨demoKey1⟩, ⟨demoKey2⟩, ⟨demoKey3⟩]
          demoCommit).1.Signatures.map (fun s => s.Signature) ≠
        (resign demoCrypto "abc_1-2" [⟨demoKey2⟩, ⟨demoKey1⟩, ⟨demoKey3⟩]
          demoCommit).1.Signatures.map (fun s => s.Signature)) := by
  refine ⟨⟨?_, by decide, by decide⟩,
    ⟨List.Perm.swap _ _ _, by decide, by decide, by decide, by decide⟩⟩
  exact @List.perm_append_comm _ [(⟨demoShortKey⟩ : MockPV)] [⟨demoKey1⟩, ⟨demoKey3⟩]

/-- C9, amended: for identity lists that are permutations of each other and
whose keys the ed25519 library accepts (64 bytes, public half not all zero),
the loop aborts on both or on neither, with the same message; and when
identities of the list with the same derived address are the same identity,
the loop has the same outcome on both lists, the signature bytes of every
slot included. -/
theorem resign_perm (cr : Crypto) (chainId : String) (pvs1 pvs2 : List MockPV) (c : Commit)
    (hperm : pvs1.Perm pvs2) (hacc : ∀ pv ∈ pvs1, pv.accepted = true) :
    (resign cr chainId pvs1 c).2 = (resign cr chainId pvs2 c).2 ∧
    ((∀ p ∈ pvs1, ∀ q ∈ pvs1, MockPV.address cr p = MockPV.address cr q → p = q) →
      resign cr chainId pvs1 c = resign cr chainId pvs2 c) := by
  have hacc2 : ∀ pv ∈ pvs2, pv.accepted = true := fun pv hpv => hacc pv (hperm.mem_iff.mpr hpv)
  constructor
  · rw [resign_abort cr chainId pvs1 c hacc, resign_abort cr chainId pvs2 c hacc2]
    have : (fun a => !hasSigner cr pvs1 a) = (fun a => !hasSigner cr pvs2 a) := by
      funext a
      rw [hasSigner_perm cr hperm a]
    rw [this]
  · intro hinj
    exact resignSlots_perm cr chainId hperm hacc hinj _ c

set_option maxRecDepth 100000 in
/-- C9, amended, at the sample commit with the two identities in either
order: the lists are permutations, the keys are accepted, the identities have
different addresses, and the loop has the same outcome on both. -/
theorem resign_perm_witness :
    List.Perm [(⟨demoKey1⟩ : MockPV), ⟨demoKey3⟩] [⟨demoKey3⟩, ⟨demoKey1⟩] ∧
    (∀ pv ∈ [(⟨demoKey1⟩ : MockPV), ⟨demoKey3⟩], pv.accepted = true) ∧
    (resign demoCrypto "abc_1-2" [⟨demoKey1⟩, ⟨demoKey3⟩] demoCommit).2 =
      (resign demoCrypto "abc_1-2" [⟨demoKey3⟩, ⟨demoKey1⟩] demoCommit).2 ∧
    (∀ p ∈ [(⟨demoKey1⟩ : MockPV), ⟨demoKey3⟩], ∀ q ∈ [(⟨demoKey1⟩ : MockPV), ⟨demoKey3⟩],
      MockPV.address demoCrypto p = MockPV.address demoCrypto q → p = q) ∧
    resign demoCrypto "abc_1-2" [⟨demoKey1⟩, ⟨demoKey3⟩] demoCommit =
      resign demoCrypto "abc_1-2" [⟨demoKey3⟩, ⟨demoKey1⟩] demoCommit :=
  ⟨List.Perm.swap _ _ _, by decide,
    (resign_perm demoCrypto "abc_1-2" [⟨demoKey1⟩, ⟨demoKey3⟩] [⟨demoKey3⟩, ⟨demoKey1⟩]
      demoCommit (List.Perm.swap _ _ _) (by decide)).1,
    by decide,
    (resign_perm demoCrypto "abc_1-2" [⟨demoKey1⟩, ⟨demoKey3⟩] [⟨demoKey3⟩, ⟨demoKey1⟩]
      demoCommit (List.Perm.swap _ _ _) (by decide)).2 (by decide)⟩
/-! ## The run of `main`: aborts, the no-op, the order of the writes -/

/-- C4, amended: let the key file load as the key set `pvs` and let the seen
commit `c` of the stored state have a slot whose validator address is the
derived address of no identity of `pvs`. Then no event of the run is a write
to the block store or to the state store; in the run that loads `c` the
re-signing loop aborts and the aborted loop is the last event, wherever the
slot stands and however many earlier slots were re-signed in memory; and when
every key of `pvs` is one the ed25519 library accepts, the abort is the
signer-not-found one, naming such a slot. -/
theorem main_signer_not_found (w : World) (pvs : List MockPV) (st : State) (c : Commit)
    (hkeys : readKeys (w.readFile w.keys) = .ok pvs)
    (hstate : w.loadState = .ok st)
    (hcommit : w.loadSeenCommit st.LastBlockHeight = some c)
    (hmiss : ∃ slot ∈ c.Signatures,
      ∀ pv ∈ pvs, MockPV.address w.crypto pv ≠ .ok slot.ValidatorAddress) :
    (∀ e ∈ (main w).events, e.isWrite = false) ∧
    (Event.seenCommitLoaded st.LastBlockHeight (some c) ∈ (main w).events →
      (∃ msg, (main w).exit = .panicked msg) ∧
      (main w).events.getLast? =
        some (Event.resigned (resign w.crypto w.chainId pvs c).1
          (resign w.crypto w.chainId pvs c).2) ∧
      ((∀ pv ∈ pvs, pv.accepted = true) →
        ∃ slot ∈ c.Signatures,
          (∀ pv ∈ pvs, MockPV.address w.crypto pv ≠ .ok slot.ValidatorAddress) ∧
          (main w).exit = .panicked (signerNotFound (upperHex slot.ValidatorAddress)))) := by
  rcases main_paths w with ⟨out, -, h⟩ | ⟨msg, h⟩ | ⟨err, h⟩ | ⟨st1, -, -, h⟩ |
    ⟨st1, -, -, h⟩ | ⟨pvs1, st1, c1, hk, hs, -, hc, hrest⟩
  · rw [h]; simp [Event.isWrite]
  · rw [h]; simp
  · rw [h]; simp [Event.isWrite]
  · rw [h]; simp [eventsToState, Event.isWrite]
  · rw [h]; simp [eventsToState, Event.isWrite]
  · have hp : pvs1 = pvs := by
      rw [hk] at hkeys
      simpa using hkeys
    subst hp
    have hst : st1 = st := by
      rw [hs] at hstate
      simpa using hstate
    subst hst
    have hc1 : c1 = c := by
      rw [hc] at hcommit
      simpa using hcommit
    subst hc1
    obtain ⟨msg0, hmsg0⟩ := resign_aborts_of_unmatched w.crypto w.chainId pvs1 c1 hmiss
    rcases hrest with ⟨msg, hr, h⟩ | ⟨err, hr, h⟩ | ⟨err, hr, h⟩ | ⟨hr, h⟩
    · rw [h]
      refine ⟨?_, fun _ => ⟨⟨msg, rfl⟩, ?_, ?_⟩⟩
      · intro e he
        simp [eventsToResign, eventsToState] at he
        rcases he with rfl | rfl | rfl | rfl <;> rfl
      · simp [eventsToResign, eventsToState]
      · intro hacc
        obtain ⟨slot, hslot, hno, hm⟩ := resign_abort_message _ _ _ _ _ hacc hr
        exact ⟨slot, hslot, hno, by rw [hm]⟩
    · rw [hr] at hmsg0; simp at hmsg0
    · rw [hr] at hmsg0; simp at hmsg0
    · rw [hr] at hmsg0; simp at hmsg0

/-- C5: when the stored consensus state carries the chain id given on the
command line, no event of the run is a write to either store and none
belongs to the re-signing step; and the run that loads that state does
nothing after the load but print the nothing-to-change message and return. -/
theorem main_same_chain_id (w : World) (st : State)
    (hstate : w.loadState = .ok st)
    (heq : st.ChainID = w.chainId) :
    (∀ e ∈ (main w).events, e.isWrite = false) ∧
    (∀ e ∈ (main w).events, e.isResign = false) ∧
    (Event.stateLoaded st ∈ (main w).events →
      main w =
        ⟨[.loadLatestVersion w.loadLatestVersion, .stateLoaded st,
          .print (.nothingToChange st.ChainID w.chainId)], .returned⟩ ∧
      (main w).events.getLast? = some (.print (.nothingToChange st.ChainID w.chainId))) := by
  rcases main_paths w with ⟨out, -, h⟩ | ⟨msg, h⟩ | ⟨err, h⟩ | ⟨st1, hs, -, h⟩ |
    ⟨st1, hs, hne, h⟩ | ⟨pvs1, st1, c1, -, hs, hne, -, hrest⟩
  · rw [h]; simp [Event.isWrite, Event.isResign]
  · rw [h]; simp
  · rw [h]; simp [Event.isWrite, Event.isResign]
  · have hst : st1 = st := by
      rw [hs] at hstate
      simpa using hstate
    subst hst
    rw [h]
    simp [eventsToState, Event.isWrite, Event.isResign]
  · have hst : st1 = st := by
      rw [hs] at hstate
      simpa using hstate
    subst hst
    exact absurd heq hne
  · have hst : st1 = st := by
      rw [hs] at hstate
      simpa using hstate
    subst hst
    exact absurd heq hne

/-- C6: in every run the consensus state is written only after the seen
commit was written with success: a call of `stateStore.Save` among the events
comes after a call of `SaveSeenCommit` that returned no error, with no write
before that one; and when `SaveSeenCommit` returns an error the run prints it
and returns, with no call of `stateStore.Save` among its events. -/
theorem main_state_after_commit (w : World) :
    (∀ st err, Event.saveState st err ∈ (main w).events →
      ∃ pre height c post,
        (main w).events = pre ++ Event.saveSeenCommit height c none :: post ∧
        (∀ e ∈ pre, e.isWrite = false) ∧
        Event.saveState st err ∈ post) ∧
    (∀ height c e, Event.saveSeenCommit height c (some e) ∈ (main w).events →
      (∀ st err, Event.saveState st err ∉ (main w).events) ∧
      (main w).events.getLast? = some (.print (.error e)) ∧
      (main w).exit = .returned) := by
  rcases main_paths w with ⟨out, -, h⟩ | ⟨msg, h⟩ | ⟨err, h⟩ | ⟨st1, -, -, h⟩ |
    ⟨st1, -, -, h⟩ | ⟨pvs1, st1, c1, -, -, -, -, hrest⟩
  · rw [h]; simp
  · rw [h]; simp
  · rw [h]; simp
  · rw [h]; simp [eventsToState]
  · rw [h]; simp [eventsToState]
  · rcases hrest with ⟨msg, -, h⟩ | ⟨err, -, h⟩ | ⟨err, -, h⟩ | ⟨-, h⟩
    · rw [h]; simp [eventsToResign, eventsToState]
    · rw [h]
      constructor
      · intro st err0 hmem
        simp [eventsToResign, eventsToState] at hmem
      · intro height c e hmem
        simp [eventsToResign, eventsToState] at hmem
        obtain ⟨-, -, rfl⟩ := hmem
        simp [eventsToResign, eventsToState]
    · rw [h]
      constructor
      · intro st err0 hmem
        refine ⟨eventsToResign w pvs1 st1 c1, st1.LastBlockHeight,
          (resign w.crypto w.chainId pvs1 c1).1,
          [.saveState (updatedState w st1) (some err), .print (.error err)], rfl, ?_, ?_⟩
        · intro e he
          simp [eventsToResign, eventsToState] at he
          rcases he with rfl | rfl | rfl | rfl <;> rfl
        · simp [eventsToResign, eventsToState] at hmem
          simp [hmem]
      · intro height c e hmem
        simp [eventsToResign, eventsToState] at hmem
    · rw [h]
      constructor
      · intro st err0 hmem
        refine ⟨eventsToResign w pvs1 st1 c1, st1.LastBlockHeight,
          (resign w.crypto w.chainId pvs1 c1).1,
          [.saveState (updatedState w st1) none, .print (.success st1.ChainID w.chainId)],
          rfl, ?_, ?_⟩
        · intro e he
          simp [eventsToResign, eventsToState] at he
          rcases he with rfl | rfl | rfl | rfl <;> rfl
        · simp [eventsToResign, eventsToState] at hmem
          simp [hmem]
      · intro height c e hmem
        simp [eventsToResign, eventsToState] at hmem

/-- C7: a run that ends with the success message loaded a consensus state
`st` and the seen commit `c` of height `st.LastBlockHeight`; it wrote the
re-signed commit to the block store under that same height, and then wrote
the state record that is `st` with `ChainID` set to the new chain id and
`AppHash` set to the latest commit hash of the commit multi-store, every other
field being that of `st`; these are its only writes. -/
theorem main_success (w : World) (oldChainId newChainId : String)
    (h : Event.print (.success oldChainId newChainId) ∈ (main w).events) :
    ∃ pvs st c,
      readKeys (w.readFile w.keys) = .ok pvs ∧ w.loadState = .ok st ∧
      w.loadSeenCommit st.LastBlockHeight = some c ∧
      oldChainId = st.ChainID ∧ newChainId = w.chainId ∧
      (resign w.crypto w.chainId pvs c).2 = none ∧
      (main w).events.filter Event.isWrite =
        [ .saveSeenCommit st.LastBlockHeight (resign w.crypto w.chainId pvs c).1 none,
          .saveState { st with ChainID := w.chainId, AppHash := w.lastCommitHash } none ] ∧
      (main w).events =
        [ .loadLatestVersion w.loadLatestVersion, .stateLoaded st,
          .seenCommitLoaded st.LastBlockHeight (some c),
          .resigned (resign w.crypto w.chainId pvs c).1 none,
          .saveSeenCommit st.LastBlockHeight (resign w.crypto w.chainId pvs c).1 none,
          .saveState { st with ChainID := w.chainId, AppHash := w.lastCommitHash } none,
          .print (.success st.ChainID w.chainId) ] ∧
      (main w).exit = .returned := by
  rcases main_paths w with ⟨out, hout, hm⟩ | ⟨msg, hm⟩ | ⟨err, hm⟩ | ⟨st1, -, -, hm⟩ |
    ⟨st1, -, -, hm⟩ | ⟨pvs1, st1, c1, hk, hs, -, hc, hrest⟩
  · rw [hm] at h
    simp only [List.mem_singleton, Event.print.injEq] at h
    subst h
    simp at hout
  · rw [hm] at h; simp at h
  · rw [hm] at h; simp at h
  · rw [hm] at h; simp [eventsToState] at h
  · rw [hm] at h; simp [eventsToState] at h
  · rcases hrest with ⟨msg, -, hm⟩ | ⟨err, -, hm⟩ | ⟨err, -, hm⟩ | ⟨hr, hm⟩
    · rw [hm] at h; simp [eventsToResign, eventsToState] at h
    · rw [hm] at h; simp [eventsToResign, eventsToState] at h
    · rw [hm] at h; simp [eventsToResign, eventsToState] at h
    · rw [hm] at h
      simp [eventsToResign, eventsToState] at h
      obtain ⟨rfl, rfl⟩ := h
      refine ⟨pvs1, st1, c1, hk, hs, hc, rfl, rfl, hr, ?_, ?_, ?_⟩
      · rw [hm]
        simp [eventsToResign, eventsToState, Event.isWrite, List.filter, updatedState]
      · rw [hm]
        simp [eventsToResign, eventsToState, updatedState, hr]
      · rw [hm]

/-- The checked siblings of the unchecked call: when a run gets as far as
opening the stores and one of the three databases cannot be opened, the run
prints the error and returns, with no event of the re-signing step and no
write. -/
theorem main_store_open_error (w : World) (pvs : List MockPV) (err : Error)
    (h1 : ¬ (w.home = "" ∨ w.chainId = "" ∨ w.keys = ""))
    (h2 : IsValidChainID w.chainId = true)
    (h3 : readKeys (w.readFile w.keys) = .ok pvs)
    (h4 : Exists (w.stat w.stateDBPath) = some true)
    (h : w.dbProvider "application" = some err ∨
      (w.dbProvider "application" = none ∧ w.dbProvider "blockstore" = some err) ∨
      (w.dbProvider "application" = none ∧ w.dbProvider "blockstore" = none ∧
        w.dbProvider "state" = some err)) :
    (main w).events.getLast? = some (.print (.error err)) ∧
    (main w).exit = .returned ∧
    (∀ e ∈ (main w).events, e.isWrite = false ∧ e.isResign = false) := by
  rcases h with ha | ⟨ha, hb⟩ | ⟨ha, hb, hc⟩
  · simp [main, h1, h2, h3, h4, initAppDBs, ha, Event.isWrite, Event.isResign]
  · simp [main, h1, h2, h3, h4, initAppDBs, initDBs, ha, hb, Event.isWrite, Event.isResign]
  · simp [main, h1, h2, h3, h4, initAppDBs, initDBs, ha, hb, hc, Event.isWrite,
      Event.isResign]
set_option maxRecDepth 100000 in
/-- C4, as stated, fails: the key file of `demoWorldShortKey` loads as a key
of three bytes and `demoKey1`, the second slot of the commit has no signer,
the run loads the commit and writes nothing, and it ends in the slice-bounds
failure of `PubKey()` on the short key at slot 0, which is the
signer-not-found abort of no slot. -/
theorem main_short_key_panics :
    readKeys (demoWorldShortKey.readFile demoWorldShortKey.keys) =
      .ok [⟨demoShortKey⟩, ⟨demoKey1⟩] ∧
    demoWorldShortKey.loadState = .ok demoState ∧
    demoWorldShortKey.loadSeenCommit demoState.LastBlockHeight = some demoCommit ∧
    (∃ slot ∈ demoCommit.Signatures,
      ∀ pv ∈ [(⟨demoShortKey⟩ : MockPV), ⟨demoKey1⟩],
        MockPV.address demoWorldShortKey.crypto pv ≠ .ok slot.ValidatorAddress) ∧
    Event.seenCommitLoaded demoState.LastBlockHeight (some demoCommit) ∈
      (main demoWorldShortKey).events ∧
    (∀ e ∈ (main demoWorldShortKey).events, e.isWrite = false) ∧
    (main demoWorldShortKey).exit = .panicked sliceBoundsOutOfRange ∧
    (∀ slot ∈ demoCommit.Signatures,
      (main demoWorldShortKey).exit ≠
        .panicked (signerNotFound (upperHex slot.ValidatorAddress))) := by
  refine ⟨by decide, rfl, rfl, ?_, by decide, by decide, by decide, by decide⟩
  exact ⟨⟨.Commit, List.replicate 20 9, 1001, List.replicate 64 6⟩, by decide, by decide⟩

set_option maxRecDepth 100000 in
/-- C4, amended, at the sample run whose key file lacks the key of the second
slot: the key is accepted, the commit is loaded, the run ends in the
signer-not-found abort, and it writes nothing. -/
theorem main_signer_not_found_witness :
    readKeys (demoWorldMissingSigner.readFile demoWorldMissingSigner.keys) =
      .ok [⟨demoKey1⟩] ∧
    demoWorldMissingSigner.loadState = .ok demoState ∧
    demoWorldMissingSigner.loadSeenCommit demoState.LastBlockHeight = some demoCommit ∧
    (∃ slot ∈ demoCommit.Signatures,
      ∀ pv ∈ [(⟨demoKey1⟩ : MockPV)],
        MockPV.address demoWorldMissingSigner.crypto pv ≠ .ok slot.ValidatorAddress) ∧
    (∀ e ∈ (main demoWorldMissingSigner).events, e.isWrite = false) ∧
    Event.seenCommitLoaded demoState.LastBlockHeight (some demoCommit) ∈
      (main demoWorldMissingSigner).events ∧
    (∃ msg, (main demoWorldMissingSigner).exit = .panicked msg) ∧
    (main demoWorldMissingSigner).events.getLast? =
      some (Event.resigned
        (resign demoWorldMissingSigner.crypto demoWorldMissingSigner.chainId
          [⟨demoKey1⟩] demoCommit).1
        (resign demoWorldMissingSigner.crypto demoWorldMissingSigner.chainId
          [⟨demoKey1⟩] demoCommit).2) ∧
    (∀ pv ∈ [(⟨demoKey1⟩ : MockPV)], pv.accepted = true) ∧
    (∃ slot ∈ demoCommit.Signatures,
      (∀ pv ∈ [(⟨demoKey1⟩ : MockPV)],
        MockPV.address demoWorldMissingSigner.crypto pv ≠ .ok slot.ValidatorAddress) ∧
      (main demoWorldMissingSigner).exit =
        .panicked (signerNotFound (upperHex slot.ValidatorAddress))) :=
  have hmiss : ∃ slot ∈ demoCommit.Signatures,
      ∀ pv ∈ [(⟨demoKey1⟩ : MockPV)],
        MockPV.address demoWorldMissingSigner.crypto pv ≠ .ok slot.ValidatorAddress :=
    ⟨⟨.Commit, List.replicate 20 9, 1001, List.replicate 64 6⟩, by decide, by decide⟩
  have hloaded : Event.seenCommitLoaded demoState.LastBlockHeight (some demoCommit) ∈
      (main demoWorldMissingSigner).events := by decide
  have hacc : ∀ pv ∈ [(⟨demoKey1⟩ : MockPV)], pv.accepted = true := by decide
  have hmain := main_signer_not_found demoWorldMissingSigner [⟨demoKey1⟩] demoState demoCommit
    (by decide) rfl rfl hmiss
  ⟨by decide, rfl, rfl, hmiss, hmain.1, hloaded, (hmain.2 hloaded).1, (hmain.2 hloaded).2.1,
    hacc, (hmain.2 hloaded).2.2 hacc⟩

set_option maxRecDepth 100000 in
/-- C5, at the sample run asked for the chain id the node already has: the
state is loaded and the run is the no-op. -/
theorem main_same_chain_id_witness :
    demoWorldSameId.loadState = .ok demoState ∧
    demoState.ChainID = demoWorldSameId.chainId ∧
    (∀ e ∈ (main demoWorldSameId).events, e.isWrite = false) ∧
    (∀ e ∈ (main demoWorldSameId).events, e.isResign = false) ∧
    Event.stateLoaded demoState ∈ (main demoWorldSameId).events ∧
    main demoWorldSameId =
      ⟨[.loadLatestVersion demoWorldSameId.loadLatestVersion, .stateLoaded demoState,
        .print (.nothingToChange demoState.ChainID demoWorldSameId.chainId)], .returned⟩ ∧
    (main demoWorldSameId).events.getLast? =
      some (.print (.nothingToChange demoState.ChainID demoWorldSameId.chainId)) :=
  have hloaded : Event.stateLoaded demoState ∈ (main demoWorldSameId).events := by decide
  have hmain := main_same_chain_id demoWorldSameId demoState rfl (by decide)
  ⟨rfl, by decide, hmain.1, hmain.2.1, hloaded, (hmain.2.2 hloaded).1, (hmain.2.2 hloaded).2⟩

set_option maxRecDepth 100000 in
/-- C7, at the sample run: it succeeds, and what it wrote is as stated. -/
theorem main_success_witness :
    Event.print (.success "abc_1-1" "abc_1-2") ∈ (main demoWorld).events ∧
    ∃ pvs st c,
      readKeys (demoWorld.readFile demoWorld.keys) = .ok pvs ∧ demoWorld.loadState = .ok st ∧
      demoWorld.loadSeenCommit st.LastBlockHeight = some c ∧
      "abc_1-1" = st.ChainID ∧ "abc_1-2" = demoWorld.chainId ∧
      (resign demoWorld.crypto demoWorld.chainId pvs c).2 = none ∧
      (main demoWorld).events.filter Event.isWrite =
        [ .saveSeenCommit st.LastBlockHeight
            (resign demoWorld.crypto demoWorld.chainId pvs c).1 none,
          .saveState
            { st with ChainID := demoWorld.chainId, AppHash := demoWorld.lastCommitHash }
            none ] ∧
      (main demoWorld).events =
        [ .loadLatestVersion demoWorld.loadLatestVersion, .stateLoaded st,
          .seenCommitLoaded st.LastBlockHeight (some c),
          .resigned (resign demoWorld.crypto demoWorld.chainId pvs c).1 none,
          .saveSeenCommit st.LastBlockHeight
            (resign demoWorld.crypto demoWorld.chainId pvs c).1 none,
          .saveState
            { st with ChainID := demoWorld.chainId, AppHash := demoWorld.lastCommitHash }
            none,
          .print (.success st.ChainID demoWorld.chainId) ] ∧
      (main demoWorld).exit = .returned :=
  ⟨by decide, main_success demoWorld "abc_1-1" "abc_1-2" (by decide)⟩

set_option maxRecDepth 100000 in
/-- C10, where the code departs from it: `cms.LoadLatestVersion()` returns an
error and the run goes on all the same. It re-signs the commit, writes it,
writes the state record with an empty application hash, and reports
success; the error is printed nowhere. -/
theorem main_ignores_loadLatestVersion_error :
    main demoWorldLoadVersionFails =
      ⟨[ .loadLatestVersion (some "failed to load latest version"),
          .stateLoaded demoState,
          .seenCommitLoaded 100 (some demoCommit),
          .resigned (resign demoCrypto "abc_1-2" [⟨demoKey1⟩, ⟨demoKey3⟩] demoCommit).1 none,
          .saveSeenCommit 100
            (resign demoCrypto "abc_1-2" [⟨demoKey1⟩, ⟨demoKey3⟩] demoCommit).1 none,
          .saveState { demoState with ChainID := "abc_1-2", AppHash := [] } none,
          .print (.success "abc_1-1" "abc_1-2") ], .returned⟩ := by
  decide

/-! ## The key file -/

set_option maxRecDepth 100000 in
/-- Where the round trip stops: the byte string of length zero, which is no
private key, has the empty line as its base64 text, and `readKeys` skips an
empty line as blank. -/
theorem readKeys_skips_empty_text :
    EncodeToString [] = [] ∧
    readKeys (.ok (fileText [.key demoKey1, .key [], .key demoKey3])) =
      .ok [⟨demoKey1⟩, ⟨demoKey3⟩] := by
  exact ⟨rfl, by decide⟩

/-- C8: for every list of private keys (byte strings that are not empty, as
every key is), written one per line in standard base64 with any number of
blank or white-space-only lines among them, at any places, `readKeys` yields
one identity per key, in line order, with the bytes of the key. -/
theorem readKeys_round_trip (ls : List FileLine)
    (hwf : ∀ l ∈ ls, l.WellFormed) (hne : ∀ k, FileLine.key k ∈ ls → k ≠ []) :
    readKeys (.ok (fileText ls)) = .ok ((fileKeys ls).map MockPV.mk) ∧
    ((fileKeys ls).map MockPV.mk).map MockPV.PrivKey = fileKeys ls ∧
    ((fileKeys ls).map MockPV.mk).length = (fileKeys ls).length := by
  refine ⟨?_, ?_, by simp⟩
  · have := readKeysLines_fileText ls [] hwf hne
    simpa [readKeys, fileText] using this
  · simp [List.map_map, Function.comp_def]

set_option maxRecDepth 100000 in
/-- C8, at a file of two keys with blank lines before, between and
after them. -/
theorem readKeys_round_trip_witness :
    (∀ l ∈ [FileLine.blank [' ', '\t'], .key demoKey1, .blank [], .blank ['\r'],
        .key demoKey3, .blank []], l.WellFormed) ∧
    (∀ k, FileLine.key k ∈ [FileLine.blank [' ', '\t'], .key demoKey1, .blank [],
        .blank ['\r'], .key demoKey3, .blank []] → k ≠ []) ∧
    readKeys (.ok (fileText [.blank [' ', '\t'], .key demoKey1, .blank [], .blank ['\r'],
        .key demoKey3, .blank []])) =
      .ok ((fileKeys [.blank [' ', '\t'], .key demoKey1, .blank [], .blank ['\r'],
        .key demoKey3, .blank []]).map MockPV.mk) :=
  have hwf : ∀ l ∈ [FileLine.blank [' ', '\t'], .key demoKey1, .blank [], .blank ['\r'],
      .key demoKey3, .blank []], l.WellFormed := by
    intro l hl
    simp only [List.mem_cons, List.mem_singleton, List.not_mem_nil, or_false] at hl
    rcases hl with rfl | rfl | rfl | rfl | rfl | rfl
    · show ∀ c ∈ [' ', '\t'], isSpace c = true
      decide
    · show ∀ b ∈ demoKey1, b < 256
      decide
    · show ∀ c ∈ ([] : List Char), isSpace c = true
      decide
    · show ∀ c ∈ ['\r'], isSpace c = true
      decide
    · show ∀ b ∈ demoKey3, b < 256
      decide
    · show ∀ c ∈ ([] : List Char), isSpace c = true
      decide
  have hne : ∀ k, FileLine.key k ∈ [FileLine.blank [' ', '\t'], .key demoKey1, .blank [],
      .blank ['\r'], .key demoKey3, .blank []] → k ≠ [] := by
    intro k hk
    simp only [List.mem_cons, List.mem_singleton, List.not_mem_nil, or_false,
      FileLine.key.injEq, reduceCtorEq, false_or] at hk
    rcases hk with rfl | rfl <;> decide
  ⟨hwf, hne, (readKeys_round_trip _ hwf hne).1⟩

/-! ## The chain-id validator -/

set_option maxRecDepth 100000 in
/-- C1: `IsValidChainID s` is true exactly when `len s ≤ 48` and the whole of
`s` is one or more lowercase letters, then `_`, then a positive decimal
integer without leading zero, then `-`, then a positive decimal integer
without leading zero. `cosmos_9000-1` is accepted, `Cosmos_9000-1` and
`cosmos-9000_1` are rejected, and every text of that form with 49 characters
is rejected: so is the sample of 49 characters (and the one of 50), while
the sample of 48 characters is accepted. -/
theorem isValidChainID_iff_grammar :
    (∀ s : String, IsValidChainID s = true ↔ len s ≤ 48 ∧ ChainIDGrammar s) ∧
    IsValidChainID "cosmos_9000-1" = true ∧
    IsValidChainID "Cosmos_9000-1" = false ∧
    IsValidChainID "cosmos-9000_1" = false ∧
    (∀ s : String, ChainIDGrammar s → s.length = 49 → IsValidChainID s = false) ∧
    ChainIDGrammar "abcdefghijklmnopqrstuvwxyzabcdefghijklmnopqr_12-34" ∧
    IsValidChainID "abcdefghijklmnopqrstuvwxyzabcdefghijklmnopqr_12-34" = false ∧
    String.length "abcdefghijklmnopqrstuvwxyzabcdefghijklmnopq_12-34" = 49 ∧
    ChainIDGrammar "abcdefghijklmnopqrstuvwxyzabcdefghijklmnopq_12-34" ∧
    IsValidChainID "abcdefghijklmnopqrstuvwxyzabcdefghijklmnopq_12-34" = false ∧
    String.length "abcdefghijklmnopqrstuvwxyzabcdefghijklmnop_12-34" = 48 ∧
    IsValidChainID "abcdefghijklmnopqrstuvwxyzabcdefghijklmnop_12-34" = true := by
  have hiff : ∀ s : String, IsValidChainID s = true ↔ len s ≤ 48 ∧ ChainIDGrammar s := by
    intro s
    unfold IsValidChainID
    by_cases h : len s > 48
    · simp only [h, if_true]
      constructor
      · intro hf
        exact absurd hf (by simp)
      · rintro ⟨h1, -⟩
        omega
    · simp only [h, if_false, matchString_ethermintChainID]
      constructor
      · intro hg
        exact ⟨by omega, hg⟩
      · rintro ⟨-, hg⟩
        exact hg
  refine ⟨hiff, by decide, by decide, by decide, ?_, ?_, by decide, by decide, ?_,
    by decide, by decide, by decide⟩
  · intro s _ h49
    have hlen := length_le_utf8ByteSize s
    unfold IsValidChainID len
    have : s.utf8ByteSize > 48 := by omega
    simp [this]
  · rw [← matchString_ethermintChainID]
    decide
  · rw [← matchString_ethermintChainID]
    decide

end ChangeChainId
